import Mathlib

/-!
# Verification of the forkscan retirement-bookkeeping registries

This file embeds the two registries of the repository and the concurrent
workload generator, and proves the stated properties about them:

* `sort_test.c` — array registry: in-place quicksort with an insertion-sort
  fallback (`forkscan_util_sort`), `binary_search_mark`, and
  `filter_marked_array`.  C arrays of `size_t` are modelled as total maps
  `Int → Nat` indexed by C `int` indices; the flag array (C `int`) is
  modelled as `Int → Int`.
* `forkscan-changed/avl.c` — ordered registry: an AVL tree with a `marked`
  bit per node (`avl_insert`, `avl_contains`, `avl_mark`, `avl_inorder`,
  `avl_build_from_array`).
* `forkscan_test/main.c` — the `remove_node` retirement race, modelled as an
  interleaving semantics of the two atomic exchanges.
-/

/-! ## Index ranges and windows of an array

`idxList lo hi` is the list of C `int` indices `lo, lo+1, …, hi`;
`window a lo hi` is the content of the array `a` on that index range. -/

def idxList (lo hi : Int) : List Int :=
  if lo ≤ hi then lo :: idxList (lo + 1) hi else []
termination_by (hi + 1 - lo).toNat
decreasing_by omega

def window (a : Int → Nat) (lo hi : Int) : List Nat :=
  (idxList lo hi).map a

theorem idxList_nil (lo hi : Int) (h : hi < lo) : idxList lo hi = [] := by
  rw [idxList]
  simp [Int.not_le.mpr h]

theorem idxList_cons (lo hi : Int) (h : lo ≤ hi) :
    idxList lo hi = lo :: idxList (lo + 1) hi := by
  rw [idxList]
  simp [h]

theorem mem_idxList {n : Int} : ∀ lo hi : Int, n ∈ idxList lo hi ↔ lo ≤ n ∧ n ≤ hi := by
  intro lo hi
  induction lo, hi using idxList.induct with
  | case1 lo hi h ih =>
    rw [idxList_cons lo hi h]
    simp only [List.mem_cons, ih]
    omega
  | case2 lo hi h =>
    rw [idxList_nil lo hi (by omega)]
    simp only [List.not_mem_nil, false_iff]
    omega

theorem idxList_count (x : Int) : ∀ lo hi : Int,
    (idxList lo hi).count x = if lo ≤ x ∧ x ≤ hi then 1 else 0 := by
  intro lo hi
  induction lo, hi using idxList.induct with
  | case1 lo hi h ih =>
    rw [idxList_cons lo hi h, List.count_cons, ih]
    by_cases h3 : lo = x
    · subst h3
      rw [if_neg (by omega), if_pos (And.intro (le_refl lo) h)]
      simp
    · have heq : (lo + 1 ≤ x ∧ x ≤ hi) ↔ (lo ≤ x ∧ x ≤ hi) := by omega
      simp only [heq, beq_iff_eq, if_neg h3]
      simp
  | case2 lo hi h =>
    rw [idxList_nil lo hi (by omega), if_neg (by omega)]
    simp

theorem idxList_append (lo k hi : Int) (h1 : lo ≤ k) (h2 : k ≤ hi + 1) :
    idxList lo hi = idxList lo (k - 1) ++ idxList k hi := by
  have H : ∀ n : Nat, ∀ lo : Int, (k - lo).toNat = n → lo ≤ k →
      idxList lo hi = idxList lo (k - 1) ++ idxList k hi := by
    intro n
    induction n with
    | zero =>
      intro lo hn hlo
      have hek : lo = k := by omega
      subst hek
      rw [idxList_nil lo (lo - 1) (by omega)]
      simp
    | succ n ihn =>
      intro lo hn hlo
      rw [idxList_cons lo hi (by omega), idxList_cons lo (k - 1) (by omega)]
      simp only [List.cons_append, List.cons.injEq, true_and]
      exact ihn (lo + 1) (by omega) (by omega)
  exact H _ lo rfl h1

theorem idxList_length (lo hi : Int) : (idxList lo hi).length = (hi + 1 - lo).toNat := by
  induction lo, hi using idxList.induct with
  | case1 lo hi h ih =>
    rw [idxList_cons lo hi h]
    simp only [List.length_cons, ih]
    omega
  | case2 lo hi h =>
    rw [idxList_nil lo hi (by omega)]
    simp only [List.length_nil]
    omega

theorem window_nil (a : Int → Nat) (lo hi : Int) (h : hi < lo) : window a lo hi = [] := by
  rw [window, idxList_nil lo hi h]
  rfl

theorem window_cons (a : Int → Nat) (lo hi : Int) (h : lo ≤ hi) :
    window a lo hi = a lo :: window a (lo + 1) hi := by
  rw [window, idxList_cons lo hi h]
  rfl

theorem window_append (a : Int → Nat) (lo k hi : Int) (h1 : lo ≤ k) (h2 : k ≤ hi + 1) :
    window a lo hi = window a lo (k - 1) ++ window a k hi := by
  rw [window, window, window, idxList_append lo k hi h1 h2, List.map_append]

theorem window_congr {a b : Int → Nat} {lo hi : Int}
    (h : ∀ i, lo ≤ i → i ≤ hi → a i = b i) : window a lo hi = window b lo hi := by
  rw [window, window]
  apply List.map_congr_left
  intro i hi2
  rw [mem_idxList] at hi2
  exact h i hi2.1 hi2.2

theorem mem_window {a : Int → Nat} {lo hi : Int} {x : Nat} :
    x ∈ window a lo hi ↔ ∃ i, lo ≤ i ∧ i ≤ hi ∧ a i = x := by
  rw [window]
  simp only [List.mem_map, mem_idxList]
  constructor
  · rintro ⟨i, ⟨h1, h2⟩, h3⟩
    exact ⟨i, h1, h2, h3⟩
  · rintro ⟨i, h1, h2, h3⟩
    exact ⟨i, ⟨h1, h2⟩, h3⟩

theorem self_mem_window {a : Int → Nat} {lo hi i : Int} (h1 : lo ≤ i) (h2 : i ≤ hi) :
    a i ∈ window a lo hi :=
  mem_window.mpr ⟨i, h1, h2, rfl⟩

/-! ## `sort_test.c`: the array registry

`swap`, `partition`, `insertion_sort`, `quicksort`, `forkscan_util_sort`,
`binary_search_mark` and `filter_marked_array`, translated line by line.
C `for`/`while` loops become recursive helper functions. -/

/-- `swap(addrs, n, m)` from sort_test.c. -/
def swap (addrs : Int → Nat) (n m : Int) : Int → Nat :=
  fun i => if i = n then addrs m else if i = m then addrs n else addrs i

/-- The index transposition realised by `swap`. -/
def swapIdx (n m i : Int) : Int :=
  if i = n then m else if i = m then n else i

theorem swap_eq_comp (addrs : Int → Nat) (n m : Int) :
    swap addrs n m = fun i => addrs (swapIdx n m i) := by
  funext i
  rw [swap, swapIdx]
  split_ifs <;> rfl

theorem swap_out {addrs : Int → Nat} {n m i : Int} (h1 : i ≠ n) (h2 : i ≠ m) :
    swap addrs n m i = addrs i := by
  rw [swap]
  simp [h1, h2]

theorem swapIdx_invol (n m i : Int) : swapIdx n m (swapIdx n m i) = i := by
  rw [swapIdx, swapIdx]
  split_ifs <;> omega

theorem swapIdx_inj (n m : Int) : Function.Injective (swapIdx n m) := by
  intro x y h
  have := swapIdx_invol n m x
  rw [h, swapIdx_invol] at this
  exact this.symm

/-- Swapping two positions inside a window permutes the window. -/
theorem swap_window_perm (addrs : Int → Nat) (n m lo hi : Int)
    (h1 : lo ≤ n) (h2 : n ≤ hi) (h3 : lo ≤ m) (h4 : m ≤ hi) :
    (window (swap addrs n m) lo hi).Perm (window addrs lo hi) := by
  rw [window, window, swap_eq_comp]
  have hmap : (idxList lo hi).map (fun i => addrs (swapIdx n m i)) =
      ((idxList lo hi).map (swapIdx n m)).map addrs := by
    rw [List.map_map]
    rfl
  rw [hmap]
  apply List.Perm.map
  rw [List.perm_iff_count]
  intro x
  have hcnt : ((idxList lo hi).map (swapIdx n m)).count x =
      (idxList lo hi).count (swapIdx n m x) := by
    have hx : x = swapIdx n m (swapIdx n m x) := (swapIdx_invol n m x).symm
    calc ((idxList lo hi).map (swapIdx n m)).count x
        = ((idxList lo hi).map (swapIdx n m)).count (swapIdx n m (swapIdx n m x)) := by
          rw [← hx]
      _ = (idxList lo hi).count (swapIdx n m x) :=
          List.count_map_of_injective _ _ (swapIdx_inj n m) _
  rw [hcnt, idxList_count, idxList_count]
  rw [swapIdx]
  split_ifs <;> omega

/-- The loop body of `partition` in sort_test.c:
`for (i = min; i < max; i++) { if (addrs[i] <= pivot_val) { swap(addrs, i, mid); mid++; } }`. -/
def partitionLoop (pivot_val : Nat) (addrs : Int → Nat) (i mid mx : Int) : (Int → Nat) × Int :=
  if i < mx then
    if addrs i ≤ pivot_val then partitionLoop pivot_val (swap addrs i mid) (i + 1) (mid + 1) mx
    else partitionLoop pivot_val addrs (i + 1) mid mx
  else (addrs, mid)
termination_by (mx - i).toNat
decreasing_by all_goals omega

/-- `partition(addrs, min, max)` from sort_test.c.  The pivot index is
`(min + max) / 2` in C `int` arithmetic, i.e. division truncating toward
zero (`Int.tdiv`). -/
def partition (addrs : Int → Nat) (mn mx : Int) : (Int → Nat) × Int :=
  let pivot := Int.tdiv (mn + mx) 2
  let pivot_val := addrs pivot
  let p := partitionLoop pivot_val (swap addrs pivot mx) mn mn mx
  (swap p.1 p.2 mx, p.2)

/-- The inner loop of `insertion_sort`:
`for (j = i; j > min && addrs[j-1] > addrs[j]; j--) swap(addrs, j, j-1);`. -/
def insertInner (addrs : Int → Nat) (mn j : Int) : Int → Nat :=
  if mn < j ∧ addrs j < addrs (j - 1) then insertInner (swap addrs j (j - 1)) mn (j - 1)
  else addrs
termination_by (j - mn).toNat
decreasing_by omega

/-- The outer loop of `insertion_sort`: `for (i = min + 1; i <= max; i++)`. -/
def insertOuter (addrs : Int → Nat) (mn i mx : Int) : Int → Nat :=
  if i ≤ mx then insertOuter (insertInner addrs mn i) mn (i + 1) mx
  else addrs
termination_by (mx + 1 - i).toNat
decreasing_by omega

/-- `insertion_sort(addrs, min, max)` from sort_test.c. -/
def insertion_sort (addrs : Int → Nat) (mn mx : Int) : Int → Nat :=
  insertOuter addrs mn (mn + 1) mx

theorem partitionLoop_mid_bounds (pivot_val : Nat) :
    ∀ (addrs : Int → Nat) (i mid mx : Int), mid ≤ i → i ≤ mx →
    mid ≤ (partitionLoop pivot_val addrs i mid mx).2 ∧
      (partitionLoop pivot_val addrs i mid mx).2 ≤ mx := by
  intro addrs i mid mx
  induction addrs, i, mid, mx using partitionLoop.induct pivot_val with
  | case1 addrs i mid mx hlt hle ih =>
    intro h1 h2
    rw [partitionLoop, if_pos hlt, if_pos hle]
    have := ih (by omega) (by omega)
    omega
  | case2 addrs i mid mx hlt hle ih =>
    intro h1 h2
    rw [partitionLoop, if_pos hlt, if_neg hle]
    have := ih (by omega) (by omega)
    omega
  | case3 addrs i mid mx hlt =>
    intro h1 h2
    rw [partitionLoop, if_neg hlt]
    constructor
    · exact le_refl mid
    · omega

theorem partition_mid_bounds (addrs : Int → Nat) (mn mx : Int) (h : mn ≤ mx) :
    mn ≤ (partition addrs mn mx).2 ∧ (partition addrs mn mx).2 ≤ mx := by
  rw [partition]
  exact partitionLoop_mid_bounds _ _ mn mn mx (le_refl mn) h

/-- `quicksort(addrs, min, max)` from sort_test.c, with `SORT_THRESHOLD = 16`. -/
def quicksort (addrs : Int → Nat) (mn mx : Int) : Int → Nat :=
  if mx - mn > 16 then
    let p := partition addrs mn mx
    quicksort (quicksort p.1 mn (p.2 - 1)) (p.2 + 1) mx
  else insertion_sort addrs mn mx
termination_by (mx - mn + 1).toNat
decreasing_by
  · have := partition_mid_bounds addrs mn mx (by omega)
    omega
  · have := partition_mid_bounds addrs mn mx (by omega)
    omega

/-- `forkscan_util_sort(a, length)` from sort_test.c. -/
def forkscan_util_sort (a : Int → Nat) (length : Int) : Int → Nat :=
  quicksort a 0 (length - 1)

/-- The `while (low <= high)` loop of `binary_search_mark`.  Returns the
updated flag array and the return value of the C function. -/
def binarySearchLoop (arr : Int → Nat) (target : Nat) (flags : Int → Int)
    (low high : Int) : (Int → Int) × Int :=
  if low ≤ high then
    let mid := low + Int.tdiv (high - low) 2
    if arr mid = target then
      (fun j => if j = mid then (if flags mid = 0 then 1 else flags mid) else flags j, mid)
    else if target < arr mid then binarySearchLoop arr target flags low (mid - 1)
    else binarySearchLoop arr target flags (mid + 1) high
  else (flags, -1)
termination_by (high + 1 - low).toNat
decreasing_by
  · rw [Int.tdiv_eq_ediv (by omega) (by omega)]
    omega
  · rw [Int.tdiv_eq_ediv (by omega) (by omega)]
    omega

/-- `binary_search_mark(arr, n, target, flags)` from sort_test.c. -/
def binary_search_mark (arr : Int → Nat) (n : Int) (target : Nat)
    (flags : Int → Int) : (Int → Int) × Int :=
  binarySearchLoop arr target flags 0 (n - 1)

/-- The loop of `filter_marked_array`.  Returns the updated key array, the
updated flag array, and the new count `new_n`. -/
def filterLoop (arr : Int → Nat) (flags : Int → Int) (n i new_n : Int) :
    (Int → Nat) × (Int → Int) × Int :=
  if i < n then
    if flags i = 0 then
      filterLoop (fun j => if j = new_n then arr i else arr j)
        (fun j => if j = new_n then 0 else flags j) n (i + 1) (new_n + 1)
    else filterLoop arr flags n (i + 1) new_n
  else (arr, flags, new_n)
termination_by (n - i).toNat
decreasing_by all_goals omega

/-- `filter_marked_array(arr, &n, flags)` from sort_test.c; the C function
updates `*n` in place, modelled here by returning the new count. -/
def filter_marked_array (arr : Int → Nat) (n : Int) (flags : Int → Int) :
    (Int → Nat) × (Int → Int) × Int :=
  filterLoop arr flags n 0 0

/-! ## Correctness of `filter_marked_array` (compaction) -/

/-- The keys at flag-0 positions of `[lo, hi]`, in index order. -/
def survivors (arr : Int → Nat) (flags : Int → Int) (lo hi : Int) : List Nat :=
  ((idxList lo hi).filter (fun j => decide (flags j = 0))).map arr

theorem filterLoop_spec (n : Int) :
    ∀ (arr : Int → Nat) (flags : Int → Int) (i new_n : Int),
    0 ≤ new_n → new_n ≤ i → (∀ j, 0 ≤ j → j < new_n → flags j = 0) →
    ((filterLoop arr flags n i new_n).2.2 =
        new_n + ((idxList i (n - 1)).filter (fun j => decide (flags j = 0))).length ∧
      window (filterLoop arr flags n i new_n).1 0 ((filterLoop arr flags n i new_n).2.2 - 1) =
        window arr 0 (new_n - 1) ++ survivors arr flags i (n - 1) ∧
      (∀ j, 0 ≤ j → j < (filterLoop arr flags n i new_n).2.2 →
        (filterLoop arr flags n i new_n).2.1 j = 0)) := by
  intro arr flags i new_n
  induction arr, flags, n, i, new_n using filterLoop.induct with
  | case1 arr flags n i new_n hin hfl ih =>
    intro h0 hni hz
    rw [filterLoop, if_pos hin, if_pos hfl]
    have hz2 : ∀ j, 0 ≤ j → j < new_n + 1 →
        (fun j => if j = new_n then 0 else flags j) j = 0 := by
      intro j hj1 hj2
      by_cases hj : j = new_n
      · simp [hj]
      · simp only [if_neg hj]
        exact hz j hj1 (by omega)
    obtain ⟨ih1, ih2, ih3⟩ := ih (by omega) (by omega) hz2
    simp only [dite_eq_ite] at ih1 ih2 ih3
    refine ⟨?_, ?_, ih3⟩
    · rw [ih1]
      have hfc : ((idxList (i + 1) (n - 1)).filter
            (fun j => decide ((fun j => if j = new_n then 0 else flags j) j = 0))) =
          ((idxList (i + 1) (n - 1)).filter (fun j => decide (flags j = 0))) := by
        apply List.filter_congr
        intro x hx
        rw [mem_idxList] at hx
        simp only [if_neg (by omega : ¬ x = new_n)]
      rw [hfc, idxList_cons i (n - 1) (by omega)]
      rw [List.filter_cons, if_pos (by simp [hfl])]
      simp only [List.length_cons]
      omega
    · rw [ih2]
      have hw1 : window (fun j => if j = new_n then arr i else arr j) 0 (new_n + 1 - 1) =
          window arr 0 (new_n - 1) ++ [arr i] := by
        have hsplit := window_append (fun j => if j = new_n then arr i else arr j)
          0 new_n (new_n + 1 - 1) (by omega) (by omega)
        rw [hsplit]
        congr 1
        · apply window_congr
          intro j hj1 hj2
          simp only [if_neg (by omega : ¬ j = new_n)]
        · rw [window_cons _ _ _ (by omega), window_nil _ _ _ (by omega)]
          simp
      have hw2 : survivors (fun j => if j = new_n then arr i else arr j)
            (fun j => if j = new_n then 0 else flags j) (i + 1) (n - 1) =
          survivors arr flags (i + 1) (n - 1) := by
        rw [survivors, survivors]
        have hfc : ((idxList (i + 1) (n - 1)).filter
              (fun j => decide ((fun j => if j = new_n then 0 else flags j) j = 0))) =
            ((idxList (i + 1) (n - 1)).filter (fun j => decide (flags j = 0))) := by
          apply List.filter_congr
          intro x hx
          rw [mem_idxList] at hx
          simp only [if_neg (by omega : ¬ x = new_n)]
        rw [hfc]
        apply List.map_congr_left
        intro x hx
        have hx2 := List.mem_of_mem_filter hx
        rw [mem_idxList] at hx2
        simp only [if_neg (by omega : ¬ x = new_n)]
      rw [hw1, hw2]
      have hsur : survivors arr flags i (n - 1) =
          arr i :: survivors arr flags (i + 1) (n - 1) := by
        rw [survivors, survivors, idxList_cons i (n - 1) (by omega)]
        rw [List.filter_cons, if_pos (by simp [hfl])]
        simp
      rw [hsur, List.append_assoc]
      rfl
  | case2 arr flags n i new_n hin hfl ih =>
    intro h0 hni hz
    rw [filterLoop, if_pos hin, if_neg hfl]
    obtain ⟨ih1, ih2, ih3⟩ := ih h0 (by omega) hz
    refine ⟨?_, ?_, ih3⟩
    · rw [ih1, idxList_cons i (n - 1) (by omega)]
      rw [List.filter_cons, if_neg (by simp [hfl])]
    · rw [ih2]
      have hsur : survivors arr flags i (n - 1) = survivors arr flags (i + 1) (n - 1) := by
        rw [survivors, survivors, idxList_cons i (n - 1) (by omega)]
        rw [List.filter_cons, if_neg (by simp [hfl])]
      rw [hsur]
  | case3 arr flags n i new_n hin =>
    intro h0 hni hz
    rw [filterLoop, if_neg hin]
    refine ⟨?_, ?_, hz⟩
    · rw [idxList_nil i (n - 1) (by omega)]
      simp
    · rw [survivors, idxList_nil i (n - 1) (by omega)]
      simp

/-- **C5.** For every array `arr`, flags array and length `n`, after
`filter_marked_array(arr, &n, flags)`: the new length equals the number of
positions `i < n` whose flag was `0` before the call; the surviving keys are
exactly those whose flag was `0`, in their original relative order; and
every flag in the new live prefix is `0`. -/
theorem C5_filter_marked_array_correct (arr : Int → Nat) (flags : Int → Int) (n : Int) :
    (filter_marked_array arr n flags).2.2 =
      ((idxList 0 (n - 1)).filter (fun j => decide (flags j = 0))).length ∧
    window (filter_marked_array arr n flags).1 0 ((filter_marked_array arr n flags).2.2 - 1) =
      survivors arr flags 0 (n - 1) ∧
    (∀ j, 0 ≤ j → j < (filter_marked_array arr n flags).2.2 →
      (filter_marked_array arr n flags).2.1 j = 0) := by
  have h := filterLoop_spec n arr flags 0 0 (le_refl 0) (le_refl 0) (by omega)
  rw [filter_marked_array]
  refine ⟨?_, ?_, h.2.2⟩
  · rw [h.1]
    omega
  · rw [h.2.1, window_nil arr 0 (0 - 1) (by omega)]
    simp

/-! ## Correctness of `insertion_sort` -/

/-- `a` is non-decreasing on the index range `[lo, hi]` (pairwise form). -/
def sortedOn (a : Int → Nat) (lo hi : Int) : Prop :=
  ∀ p q : Int, lo ≤ p → p ≤ q → q ≤ hi → a p ≤ a q

theorem swap_fst (addrs : Int → Nat) (n m : Int) : swap addrs n m n = addrs m := by
  rw [swap]
  simp

theorem swap_snd (addrs : Int → Nat) (n m : Int) (h : m ≠ n) : swap addrs n m m = addrs n := by
  rw [swap]
  simp [h]

theorem insertInner_untouched (mn : Int) :
    ∀ (addrs : Int → Nat) (j : Int), ∀ x, (x < mn ∨ j < x) →
    insertInner addrs mn j x = addrs x := by
  intro addrs j
  induction addrs, mn, j using insertInner.induct with
  | case1 addrs mn j h ih =>
    intro x hx
    rw [insertInner, if_pos h]
    rw [ih x (by omega)]
    exact swap_out (by omega) (by omega)
  | case2 addrs mn j h =>
    intro x hx
    rw [insertInner, if_neg h]

theorem insertInner_perm (mn : Int) :
    ∀ (addrs : Int → Nat) (j : Int), ∀ hi, j ≤ hi →
    (window (insertInner addrs mn j) mn hi).Perm (window addrs mn hi) := by
  intro addrs j
  induction addrs, mn, j using insertInner.induct with
  | case1 addrs mn j h ih =>
    intro hi hj
    rw [insertInner, if_pos h]
    exact (ih hi (by omega)).trans
      (swap_window_perm addrs j (j - 1) mn hi (by omega) (by omega) (by omega) (by omega))
  | case2 addrs mn j h =>
    intro hi hj
    rw [insertInner, if_neg h]

theorem insertInner_sorted (mn : Int) :
    ∀ (addrs : Int → Nat) (j : Int), ∀ hi, mn ≤ j → j ≤ hi →
    (∀ p q, mn ≤ p → p ≤ q → q ≤ j - 1 → addrs p ≤ addrs q) →
    (∀ p q, j ≤ p → p ≤ q → q ≤ hi → addrs p ≤ addrs q) →
    (∀ p q, mn ≤ p → p ≤ j - 1 → j + 1 ≤ q → q ≤ hi → addrs p ≤ addrs q) →
    sortedOn (insertInner addrs mn j) mn hi := by
  intro addrs j
  induction addrs, mn, j using insertInner.induct with
  | case1 addrs mn j h ih =>
    intro hi hmj hj h1 h2 h3
    rw [insertInner, if_pos h]
    have hval : ∀ x : Int, swap addrs j (j - 1) x =
        if x = j then addrs (j - 1) else if x = j - 1 then addrs j else addrs x := by
      intro x
      rw [swap]
    apply ih hi (by omega) (by omega)
    · intro p q hp hpq hq
      rw [hval p, hval q, if_neg (by omega), if_neg (by omega),
        if_neg (by omega), if_neg (by omega)]
      exact h1 p q hp hpq (by omega)
    · intro p q hp hpq hq
      rw [hval p, hval q]
      by_cases hpj : p = j - 1
      · rw [if_neg (by omega), if_pos hpj]
        by_cases hqj : q = j - 1
        · rw [if_neg (by omega), if_pos hqj]
        · by_cases hqj2 : q = j
          · rw [if_pos hqj2]
            exact le_of_lt h.2
          · rw [if_neg hqj2, if_neg hqj]
            exact h2 j q (le_refl j) (by omega) hq
      · by_cases hpj2 : p = j
        · rw [if_pos hpj2]
          by_cases hqj2 : q = j
          · rw [if_pos hqj2]
          · rw [if_neg hqj2, if_neg (by omega)]
            exact h3 (j - 1) q (by omega) (le_refl (j - 1)) (by omega) hq
        · rw [if_neg hpj2, if_neg hpj, if_neg (by omega), if_neg (by omega)]
          exact h2 p q (by omega) hpq hq
    · intro p q hp hpe hq1 hq2
      rw [hval p, hval q, if_neg (by omega), if_neg (by omega)]
      by_cases hqj : q = j
      · rw [if_pos hqj]
        exact h1 p (j - 1) hp (by omega) (by omega)
      · rw [if_neg hqj, if_neg (by omega)]
        exact h3 p q hp (by omega) (by omega) hq2
  | case2 addrs mn j h =>
    intro hi hmj hj h1 h2 h3
    rw [insertInner, if_neg h]
    intro p q hp hpq hq
    by_cases hj2 : j ≤ mn
    · exact h2 p q (by omega) hpq hq
    · have hle : addrs (j - 1) ≤ addrs j := by
        rcases not_and_or.mp h with hc | hc
        · omega
        · omega
      by_cases hq1 : q ≤ j - 1
      · exact h1 p q hp hpq hq1
      · by_cases hp1 : j ≤ p
        · exact h2 p q hp1 hpq hq
        · by_cases hqj : q = j
          · subst hqj
            exact le_trans (h1 p (q - 1) hp (by omega) (by omega)) hle
          · exact h3 p q hp (by omega) (by omega) hq

theorem insertOuter_untouched :
    ∀ (addrs : Int → Nat) (mn i mx : Int), ∀ x, (x < mn ∨ mx < x) →
    insertOuter addrs mn i mx x = addrs x := by
  intro addrs mn i mx
  induction addrs, mn, i, mx using insertOuter.induct with
  | case1 addrs mn i mx h ih =>
    intro x hx
    rw [insertOuter, if_pos h]
    rw [ih x hx]
    exact insertInner_untouched mn addrs i x (by omega)
  | case2 addrs mn i mx h =>
    intro x hx
    rw [insertOuter, if_neg h]

theorem insertOuter_perm :
    ∀ (addrs : Int → Nat) (mn i mx : Int),
    (window (insertOuter addrs mn i mx) mn mx).Perm (window addrs mn mx) := by
  intro addrs mn i mx
  induction addrs, mn, i, mx using insertOuter.induct with
  | case1 addrs mn i mx h ih =>
    rw [insertOuter, if_pos h]
    exact ih.trans (insertInner_perm mn addrs i mx h)
  | case2 addrs mn i mx h =>
    rw [insertOuter, if_neg h]

theorem insertOuter_sorted :
    ∀ (addrs : Int → Nat) (mn i mx : Int), mn + 1 ≤ i → sortedOn addrs mn (i - 1) →
    sortedOn (insertOuter addrs mn i mx) mn mx := by
  intro addrs mn i mx
  induction addrs, mn, i, mx using insertOuter.induct with
  | case1 addrs mn i mx h ih =>
    intro hi hs
    rw [insertOuter, if_pos h]
    apply ih (by omega)
    intro p q hp hpq hq
    apply insertInner_sorted mn addrs i i (by omega) (le_refl i) hs _ _ p q hp hpq (by omega)
    · intro p2 q2 hp2 hpq2 hq2
      have he : p2 = q2 := by omega
      rw [he]
    · intro p2 q2 hp2 hpe2 hq2 hq3
      omega
  | case2 addrs mn i mx h =>
    intro hi hs
    rw [insertOuter, if_neg h]
    intro p q hp hpq hq
    exact hs p q hp hpq (by omega)

/-- `insertion_sort` sorts the range `[mn, mx]`. -/
theorem insertion_sort_sorted (addrs : Int → Nat) (mn mx : Int) :
    sortedOn (insertion_sort addrs mn mx) mn mx := by
  rw [insertion_sort]
  apply insertOuter_sorted addrs mn (mn + 1) mx (le_refl (mn + 1))
  intro p q hp hpq hq
  have he : p = q := by omega
  rw [he]

/-- `insertion_sort` permutes the window `[mn, mx]`. -/
theorem insertion_sort_perm (addrs : Int → Nat) (mn mx : Int) :
    (window (insertion_sort addrs mn mx) mn mx).Perm (window addrs mn mx) := by
  rw [insertion_sort]
  exact insertOuter_perm addrs mn (mn + 1) mx

/-- `insertion_sort` does not touch entries outside `[mn, mx]`. -/
theorem insertion_sort_untouched (addrs : Int → Nat) (mn mx : Int) (x : Int)
    (hx : x < mn ∨ mx < x) : insertion_sort addrs mn mx x = addrs x := by
  rw [insertion_sort]
  exact insertOuter_untouched addrs mn (mn + 1) mx x hx

/-! ## Correctness of `partition` -/

theorem swap_snd2 (addrs : Int → Nat) (n m : Int) : swap addrs n m m = addrs n := by
  rw [swap]
  by_cases h : m = n
  · rw [if_pos h, h]
  · rw [if_neg h, if_pos rfl]

theorem partitionLoop_spec (pv : Nat) (mn : Int) :
    ∀ (addrs : Int → Nat) (i mid mx : Int),
    mn ≤ mid → mid ≤ i → i ≤ mx →
    (∀ p, mn ≤ p → p < mid → addrs p ≤ pv) →
    (∀ p, mid ≤ p → p < i → pv < addrs p) →
    ((∀ p, mn ≤ p → p < (partitionLoop pv addrs i mid mx).2 →
        (partitionLoop pv addrs i mid mx).1 p ≤ pv) ∧
      (∀ p, (partitionLoop pv addrs i mid mx).2 ≤ p → p < mx →
        pv < (partitionLoop pv addrs i mid mx).1 p) ∧
      (∀ x, (x < mn ∨ mx - 1 < x) → (partitionLoop pv addrs i mid mx).1 x = addrs x) ∧
      (window (partitionLoop pv addrs i mid mx).1 mn (mx - 1)).Perm
        (window addrs mn (mx - 1))) := by
  intro addrs i mid mx
  induction addrs, i, mid, mx using partitionLoop.induct pv with
  | case1 addrs i mid mx hlt hle ih =>
    intro hm1 hm2 hm3 hinv1 hinv2
    rw [partitionLoop, if_pos hlt, if_pos hle]
    have hinv1' : ∀ p, mn ≤ p → p < mid + 1 → swap addrs i mid p ≤ pv := by
      intro p hp1 hp2
      by_cases hpm : p = mid
      · rw [hpm, swap_snd2]
        exact hle
      · rw [swap_out (by omega) hpm]
        exact hinv1 p hp1 (by omega)
    have hinv2' : ∀ p, mid + 1 ≤ p → p < i + 1 → pv < swap addrs i mid p := by
      intro p hp1 hp2
      by_cases hpi : p = i
      · rw [hpi, swap_fst]
        exact hinv2 mid (le_refl mid) (by omega)
      · rw [swap_out hpi (by omega)]
        exact hinv2 p (by omega) (by omega)
    obtain ⟨c1, c2, c3, c4⟩ := ih (by omega) (by omega) (by omega) hinv1' hinv2'
    refine ⟨c1, c2, ?_, ?_⟩
    · intro x hx
      rw [c3 x hx]
      exact swap_out (by omega) (by omega)
    · exact c4.trans (swap_window_perm addrs i mid mn (mx - 1)
        (by omega) (by omega) (by omega) (by omega))
  | case2 addrs i mid mx hlt hle ih =>
    intro hm1 hm2 hm3 hinv1 hinv2
    rw [partitionLoop, if_pos hlt, if_neg hle]
    have hinv2' : ∀ p, mid ≤ p → p < i + 1 → pv < addrs p := by
      intro p hp1 hp2
      by_cases hpi : p = i
      · rw [hpi]
        omega
      · exact hinv2 p hp1 (by omega)
    exact ih hm1 (by omega) (by omega) hinv1 hinv2'
  | case3 addrs i mid mx hlt =>
    intro hm1 hm2 hm3 hinv1 hinv2
    rw [partitionLoop, if_neg hlt]
    refine ⟨hinv1, ?_, fun x _ => rfl, List.Perm.refl _⟩
    intro p hp1 hp2
    exact hinv2 p hp1 (by omega)

theorem partition_spec (addrs : Int → Nat) (mn mx : Int) (h0 : 0 ≤ mn) (h1 : mn ≤ mx) :
    mn ≤ (partition addrs mn mx).2 ∧ (partition addrs mn mx).2 ≤ mx ∧
    (∀ p, mn ≤ p → p < (partition addrs mn mx).2 →
      (partition addrs mn mx).1 p ≤ (partition addrs mn mx).1 (partition addrs mn mx).2) ∧
    (∀ p, (partition addrs mn mx).2 < p → p ≤ mx →
      (partition addrs mn mx).1 (partition addrs mn mx).2 < (partition addrs mn mx).1 p) ∧
    (∀ x, (x < mn ∨ mx < x) → (partition addrs mn mx).1 x = addrs x) ∧
    (window (partition addrs mn mx).1 mn mx).Perm (window addrs mn mx) := by
  have hpiv : mn ≤ Int.tdiv (mn + mx) 2 ∧ Int.tdiv (mn + mx) 2 ≤ mx := by
    rw [Int.tdiv_eq_ediv (by omega) (by omega)]
    omega
  have hbounds := partitionLoop_mid_bounds (addrs (Int.tdiv (mn + mx) 2))
    (swap addrs (Int.tdiv (mn + mx) 2) mx) mn mn mx (le_refl mn) h1
  have hspec := partitionLoop_spec (addrs (Int.tdiv (mn + mx) 2)) mn
    (swap addrs (Int.tdiv (mn + mx) 2) mx) mn mn mx (le_refl mn) (le_refl mn) h1
    (by omega) (by omega)
  rw [partition]
  simp only []
  set piv := Int.tdiv (mn + mx) 2 with hpivdef
  set pv := addrs piv with hpvdef
  set a1 := swap addrs piv mx with ha1def
  set P := partitionLoop pv a1 mn mn mx with hPdef
  obtain ⟨c1, c2, c3, c4⟩ := hspec
  have ha1mx : a1 mx = pv := by
    rw [ha1def, swap_snd2]
  have hPmx : P.1 mx = pv := by
    rw [c3 mx (by omega), ha1mx]
  have hrmid : swap P.1 P.2 mx P.2 = pv := by
    rw [swap_fst, hPmx]
  refine ⟨hbounds.1, hbounds.2, ?_, ?_, ?_, ?_⟩
  · intro p hp1 hp2
    rw [hrmid, swap_out (by omega) (by omega)]
    exact c1 p hp1 hp2
  · intro p hp1 hp2
    rw [hrmid]
    by_cases hpm : p = mx
    · rw [hpm, swap_snd2]
      exact c2 P.2 (le_refl P.2) (by omega)
    · rw [swap_out (by omega) hpm]
      exact c2 p (by omega) (by omega)
  · intro x hx
    rw [swap_out (by omega) (by omega), c3 x (by omega), ha1def,
      swap_out (by omega) (by omega)]
  · have hw1 : (window (swap P.1 P.2 mx) mn mx).Perm (window P.1 mn mx) :=
      swap_window_perm P.1 P.2 mx mn mx (by omega) (by omega) (by omega) (by omega)
    have hsplitP : window P.1 mn mx = window P.1 mn (mx - 1) ++ [P.1 mx] := by
      rw [window_append P.1 mn mx mx (by omega) (by omega),
        window_cons P.1 mx mx (le_refl mx), window_nil P.1 (mx + 1) mx (by omega)]
    have hsplita1 : window a1 mn mx = window a1 mn (mx - 1) ++ [a1 mx] := by
      rw [window_append a1 mn mx mx (by omega) (by omega),
        window_cons a1 mx mx (le_refl mx), window_nil a1 (mx + 1) mx (by omega)]
    have hw2 : (window P.1 mn mx).Perm (window a1 mn mx) := by
      rw [hsplitP, hsplita1, hPmx, ha1mx]
      exact c4.append (List.Perm.refl _)
    have hw3 : (window a1 mn mx).Perm (window addrs mn mx) := by
      rw [ha1def]
      exact swap_window_perm addrs piv mx mn mx (by omega) (by omega) (by omega) (by omega)
    exact (hw1.trans hw2).trans hw3

/-! ## Correctness of `quicksort` and `forkscan_util_sort` -/

theorem quicksort_spec :
    ∀ (addrs : Int → Nat) (mn mx : Int), 0 ≤ mn →
    sortedOn (quicksort addrs mn mx) mn mx ∧
    (window (quicksort addrs mn mx) mn mx).Perm (window addrs mn mx) ∧
    (∀ x, (x < mn ∨ mx < x) → quicksort addrs mn mx x = addrs x) := by
  intro addrs mn mx
  induction addrs, mn, mx using quicksort.induct with
  | case1 addrs mn mx h p ih1 ih1' ih2 =>
    intro h0
    have hpe : p = partition addrs mn mx := rfl
    rw [hpe] at ih1 ih2
    clear ih1'
    rw [quicksort, if_pos h]
    simp only []
    obtain ⟨hb1, hb2, hle, hgt, hunt, hperm⟩ := partition_spec addrs mn mx h0 (by omega)
    obtain ⟨hs1, hq1, hu1⟩ := ih1 h0
    obtain ⟨hs2, hq2, hu2⟩ := ih2 (by omega)
    set P := partition addrs mn mx with hPdef
    set B := quicksort P.1 mn (P.2 - 1) with hBdef
    set C := quicksort B (P.2 + 1) mx with hCdef
    have hBmid : ∀ x, P.2 - 1 < x → B x = P.1 x := fun x hx => hu1 x (Or.inr hx)
    have hCB : ∀ x, x < P.2 + 1 → C x = B x := fun x hx => hu2 x (Or.inl hx)
    have hCmid : C P.2 = P.1 P.2 := by
      rw [hCB P.2 (by omega), hBmid P.2 (by omega)]
    have heqw : window B (P.2 + 1) mx = window P.1 (P.2 + 1) mx :=
      window_congr (fun x hx1 hx2 => hBmid x (by omega))
    have hCle : ∀ p, mn ≤ p → p < P.2 → C p ≤ P.1 P.2 := by
      intro p hp1 hp2
      rw [hCB p (by omega)]
      have hmem : B p ∈ window B mn (P.2 - 1) := self_mem_window hp1 (by omega)
      obtain ⟨q, hqa, hqb, hqc⟩ := mem_window.mp (hq1.mem_iff.mp hmem)
      rw [← hqc]
      exact hle q hqa (by omega)
    have hCgt : ∀ p, P.2 < p → p ≤ mx → P.1 P.2 < C p := by
      intro p hp1 hp2
      have hmem : C p ∈ window C (P.2 + 1) mx := self_mem_window (by omega) hp2
      have hmem2 := hq2.mem_iff.mp hmem
      rw [heqw] at hmem2
      obtain ⟨q, hqa, hqb, hqc⟩ := mem_window.mp hmem2
      rw [← hqc]
      exact hgt q (by omega) hqb
    refine ⟨?_, ?_, ?_⟩
    · intro p q hpa hpb hqc
      by_cases hc1 : q ≤ P.2 - 1
      · rw [hCB p (by omega), hCB q (by omega)]
        exact hs1 p q hpa hpb hc1
      · by_cases hc2 : P.2 + 1 ≤ p
        · exact hs2 p q hc2 hpb hqc
        · have hple : C p ≤ P.1 P.2 := by
            by_cases hpm : p = P.2
            · rw [hpm, hCmid]
            · exact hCle p hpa (by omega)
          have hqge : P.1 P.2 ≤ C q := by
            by_cases hqm : q = P.2
            · rw [hqm, hCmid]
            · exact le_of_lt (hCgt q (by omega) hqc)
          exact le_trans hple hqge
    · have e1 : window C mn mx = window C mn (P.2 - 1) ++ window C P.2 mx :=
        window_append C mn P.2 mx (by omega) (by omega)
      have e2 : window C P.2 mx = C P.2 :: window C (P.2 + 1) mx :=
        window_cons C P.2 mx (by omega)
      have e3 : window C mn (P.2 - 1) = window B mn (P.2 - 1) :=
        window_congr (fun x hx1 hx2 => hCB x (by omega))
      have e5 : window P.1 mn mx = window P.1 mn (P.2 - 1) ++ window P.1 P.2 mx :=
        window_append P.1 mn P.2 mx (by omega) (by omega)
      have e6 : window P.1 P.2 mx = P.1 P.2 :: window P.1 (P.2 + 1) mx :=
        window_cons P.1 P.2 mx (by omega)
      rw [e1, e2, e3, hCmid]
      refine List.Perm.trans ?_ hperm
      rw [e5, e6]
      exact List.Perm.append hq1 (List.Perm.cons _ (hq2.trans (heqw ▸ List.Perm.refl _)))
    · intro x hx
      have hcx : C x = B x := hu2 x (by omega)
      rw [hcx, hu1 x (by omega), hunt x (by omega)]
  | case2 addrs mn mx h =>
    intro h0
    rw [quicksort, if_neg h]
    exact ⟨insertion_sort_sorted addrs mn mx, insertion_sort_perm addrs mn mx,
      fun x hx => insertion_sort_untouched addrs mn mx x hx⟩

/-- **C1.** For every input array of keys and every length `n ≥ 0`, after
`forkscan_util_sort(a, n)` the first `n` elements of the array are a
permutation of the original first `n` elements (multiset equality) and are in
non-decreasing order (for every adjacent pair, `a[i] ≤ a[i+1]`). -/
theorem C1_sort_correct (a : Int → Nat) (n : Int) (hn : 0 ≤ n) :
    (window (forkscan_util_sort a n) 0 (n - 1)).Perm (window a 0 (n - 1)) ∧
    (∀ i : Int, 0 ≤ i → i + 1 ≤ n - 1 →
      forkscan_util_sort a n i ≤ forkscan_util_sort a n (i + 1)) := by
  obtain ⟨hs, hq, hu⟩ := quicksort_spec a 0 (n - 1) (le_refl 0)
  rw [forkscan_util_sort]
  exact ⟨hq, fun i h1 h2 => hs i (i + 1) h1 (by omega) h2⟩

theorem C1_sort_correct_witness :
    (window (forkscan_util_sort (fun _ => 5) 3) 0 (3 - 1)).Perm
      (window (fun _ => 5) 0 (3 - 1)) ∧
    (∀ i : Int, 0 ≤ i → i + 1 ≤ 3 - 1 →
      forkscan_util_sort (fun _ => 5) 3 i ≤ forkscan_util_sort (fun _ => 5) 3 (i + 1)) :=
  C1_sort_correct (fun _ => 5) 3 (by decide)

/-! ## The dispatch structure of `quicksort` (threshold behaviour)

`quicksortE` is `quicksort` instrumented with the list of handled sub-ranges:
one `partitionCall` event per partition-and-recurse step, one `insertionCall`
event per insertion-sort fallback.  `quicksortE_fst` ties it to `quicksort`. -/

inductive SortCall where
  | partitionCall (mn mx : Int) : SortCall
  | insertionCall (mn mx : Int) : SortCall
deriving DecidableEq

def quicksortE (addrs : Int → Nat) (mn mx : Int) : (Int → Nat) × List SortCall :=
  if mx - mn > 16 then
    let p := partition addrs mn mx
    let l := quicksortE p.1 mn (p.2 - 1)
    let r := quicksortE l.1 (p.2 + 1) mx
    (r.1, SortCall.partitionCall mn mx :: (l.2 ++ r.2))
  else (insertion_sort addrs mn mx, [SortCall.insertionCall mn mx])
termination_by (mx - mn + 1).toNat
decreasing_by
  · have := partition_mid_bounds addrs mn mx (by omega)
    omega
  · have := partition_mid_bounds addrs mn mx (by omega)
    omega

theorem quicksortE_rec (addrs : Int → Nat) (mn mx : Int) (h : mx - mn > 16) :
    quicksortE addrs mn mx =
      ((quicksortE (quicksortE (partition addrs mn mx).1 mn ((partition addrs mn mx).2 - 1)).1
          ((partition addrs mn mx).2 + 1) mx).1,
        SortCall.partitionCall mn mx ::
          ((quicksortE (partition addrs mn mx).1 mn ((partition addrs mn mx).2 - 1)).2 ++
            (quicksortE (quicksortE (partition addrs mn mx).1 mn
                ((partition addrs mn mx).2 - 1)).1
              ((partition addrs mn mx).2 + 1) mx).2)) := by
  rw [quicksortE, if_pos h]

theorem quicksort_rec (addrs : Int → Nat) (mn mx : Int) (h : mx - mn > 16) :
    quicksort addrs mn mx =
      quicksort (quicksort (partition addrs mn mx).1 mn ((partition addrs mn mx).2 - 1))
        ((partition addrs mn mx).2 + 1) mx := by
  rw [quicksort, if_pos h]

theorem quicksortE_fst :
    ∀ (addrs : Int → Nat) (mn mx : Int), (quicksortE addrs mn mx).1 = quicksort addrs mn mx := by
  intro addrs mn mx
  induction addrs, mn, mx using quicksortE.induct with
  | case1 addrs mn mx h p l ihl ihlDup ihr =>
    have hpe : p = partition addrs mn mx := rfl
    have hle : l = quicksortE p.1 mn (p.2 - 1) := rfl
    clear ihlDup
    rw [hpe] at ihl hle
    rw [hle, hpe] at ihr
    rw [quicksortE_rec addrs mn mx h, quicksort_rec addrs mn mx h]
    simp only []
    rw [ihr, ihl]
  | case2 addrs mn mx h =>
    rw [quicksortE, if_neg h, quicksort, if_neg h]

theorem quicksortE_base (addrs : Int → Nat) (mn mx : Int) (h : ¬ mx - mn > 16) :
    (quicksortE addrs mn mx).2 = [SortCall.insertionCall mn mx] := by
  rw [quicksortE, if_neg h]

/-- **C8, amended.**  Every sub-range handled by the insertion-sort fallback
spans `mx - mn ≤ 16`, i.e. at most 17 elements, and every sub-range handled
by pivot-partition-recurse spans `mx - mn > 16`, i.e. at least 18 elements.
(The claim's stated cut — at most 16 elements for the fallback — is off by
one; see `C8_counterexample`.) -/
theorem C8_threshold_amended :
    ∀ (addrs : Int → Nat) (mn mx u v : Int),
    (SortCall.insertionCall u v ∈ (quicksortE addrs mn mx).2 → v - u ≤ 16) ∧
    (SortCall.partitionCall u v ∈ (quicksortE addrs mn mx).2 → v - u > 16) := by
  intro addrs mn mx
  induction addrs, mn, mx using quicksortE.induct with
  | case1 addrs mn mx h p l ihl ihlDup ihr =>
    intro u v
    have hpe : p = partition addrs mn mx := rfl
    have hle : l = quicksortE p.1 mn (p.2 - 1) := rfl
    clear ihlDup
    rw [hpe] at ihl hle
    rw [hle, hpe] at ihr
    rw [quicksortE_rec addrs mn mx h]
    constructor
    · intro hmem
      rcases List.mem_cons.mp hmem with hc | hc
      · exact absurd hc (by simp)
      · rcases List.mem_append.mp hc with hc2 | hc2
        · exact ((ihl u v).1) hc2
        · exact ((ihr u v).1) hc2
    · intro hmem
      rcases List.mem_cons.mp hmem with hc | hc
      · have : u = mn ∧ v = mx := by
          constructor <;> (cases hc; rfl)
        omega
      · rcases List.mem_append.mp hc with hc2 | hc2
        · exact ((ihl u v).2) hc2
        · exact ((ihr u v).2) hc2
  | case2 addrs mn mx h =>
    intro u v
    rw [quicksortE_base addrs mn mx h]
    constructor
    · intro hmem
      have : u = mn ∧ v = mx := by
        rcases List.mem_singleton.mp hmem with hc
        constructor <;> (cases hc; rfl)
      omega
    · intro hmem
      rcases List.mem_singleton.mp hmem with hc
      exact absurd hc (by simp)

theorem C8_threshold_amended_witness : (16 : Int) - 0 ≤ 16 :=
  (C8_threshold_amended (fun _ => 0) 0 16 0 16).1
    (by rw [quicksortE_base (fun _ => 0) 0 16 (by decide)]
        exact List.mem_singleton.mpr rfl)

/-- **C8 counterexample.**  The range `[0, 16]` contains 17 elements — more
than 16 — yet `quicksort` hands it to the insertion-sort fallback (the code
recurses only when `max - min > 16`, i.e. on at least 18 elements), so the
claim "every partition of more than 16 elements is handled by choosing the
middle element as pivot, partitioning, and recursing" is false. -/
theorem C8_counterexample :
    (quicksortE (fun _ => 0) 0 16).2 = [SortCall.insertionCall 0 16] ∧
    (16 : Int) - 0 + 1 > 16 :=
  ⟨quicksortE_base (fun _ => 0) 0 16 (by decide), by decide⟩

/-! ## Correctness of `binary_search_mark` -/

theorem binarySearchLoop_eq_found (arr : Int → Nat) (target : Nat) (flags : Int → Int)
    (low high : Int) (h1 : low ≤ high)
    (h2 : arr (low + Int.tdiv (high - low) 2) = target) :
    binarySearchLoop arr target flags low high =
      (fun j => if j = low + Int.tdiv (high - low) 2 then
          (if flags (low + Int.tdiv (high - low) 2) = 0 then 1
            else flags (low + Int.tdiv (high - low) 2))
        else flags j,
       low + Int.tdiv (high - low) 2) := by
  rw [binarySearchLoop, if_pos h1]
  simp only []
  rw [if_pos h2]

theorem binarySearchLoop_eq_left (arr : Int → Nat) (target : Nat) (flags : Int → Int)
    (low high : Int) (h1 : low ≤ high)
    (h2 : ¬ arr (low + Int.tdiv (high - low) 2) = target)
    (h3 : target < arr (low + Int.tdiv (high - low) 2)) :
    binarySearchLoop arr target flags low high =
      binarySearchLoop arr target flags low (low + Int.tdiv (high - low) 2 - 1) := by
  rw [binarySearchLoop, if_pos h1]
  simp only []
  rw [if_neg h2, if_pos h3]

theorem binarySearchLoop_eq_right (arr : Int → Nat) (target : Nat) (flags : Int → Int)
    (low high : Int) (h1 : low ≤ high)
    (h2 : ¬ arr (low + Int.tdiv (high - low) 2) = target)
    (h3 : ¬ target < arr (low + Int.tdiv (high - low) 2)) :
    binarySearchLoop arr target flags low high =
      binarySearchLoop arr target flags (low + Int.tdiv (high - low) 2 + 1) high := by
  rw [binarySearchLoop, if_pos h1]
  simp only []
  rw [if_neg h2, if_neg h3]

theorem binarySearchLoop_eq_stop (arr : Int → Nat) (target : Nat) (flags : Int → Int)
    (low high : Int) (h : ¬ low ≤ high) :
    binarySearchLoop arr target flags low high = (flags, -1) := by
  rw [binarySearchLoop, if_neg h]

theorem binarySearchLoop_found (arr : Int → Nat) (target : Nat) (n : Int)
    (hs : ∀ p q, 0 ≤ p → p < q → q < n → arr p < arr q) (flags : Int → Int) :
    ∀ (low high : Int), 0 ≤ low → high ≤ n - 1 →
    ∀ i, low ≤ i → i ≤ high → arr i = target →
    ((binarySearchLoop arr target flags low high).2 = i ∧
      (binarySearchLoop arr target flags low high).1 i =
        (if flags i = 0 then 1 else flags i) ∧
      (∀ j, j ≠ i → (binarySearchLoop arr target flags low high).1 j = flags j)) := by
  intro low high
  induction low, high using binarySearchLoop.induct arr target flags with
  | case1 low high h1 mid h2 =>
    intro hl hh i hi1 hi2 hi3
    have hme : mid = low + Int.tdiv (high - low) 2 := rfl
    have hmb : low ≤ mid ∧ mid ≤ high := by
      rw [hme, Int.tdiv_eq_ediv (by omega) (by omega)]
      omega
    rw [hme] at h2
    rw [binarySearchLoop_eq_found arr target flags low high h1 h2]
    have hieq : i = low + Int.tdiv (high - low) 2 := by
      by_contra hne
      rcases lt_or_gt_of_ne hne with hlt | hgt
      · have := hs i (low + Int.tdiv (high - low) 2) (by omega) hlt (by omega)
        rw [hi3, h2] at this
        exact lt_irrefl target this
      · have := hs (low + Int.tdiv (high - low) 2) i (by omega) hgt (by omega)
        rw [hi3, h2] at this
        exact lt_irrefl target this
    refine ⟨hieq.symm, ?_, ?_⟩
    · simp only [if_pos hieq]
      rw [hieq]
    · intro j hj
      simp only []
      rw [if_neg (by rw [← hieq]; exact hj)]
  | case2 low high h1 mid h2 h3 ih =>
    intro hl hh i hi1 hi2 hi3
    have hme : mid = low + Int.tdiv (high - low) 2 := rfl
    have hmb : low ≤ mid ∧ mid ≤ high := by
      rw [hme, Int.tdiv_eq_ediv (by omega) (by omega)]
      omega
    rw [hme] at h2 h3 ih
    rw [binarySearchLoop_eq_left arr target flags low high h1 h2 h3]
    have hilt : i < low + Int.tdiv (high - low) 2 := by
      by_contra hge
      have hge2 : low + Int.tdiv (high - low) 2 ≤ i := by omega
      rcases eq_or_lt_of_le hge2 with he | hlt
      · rw [← he] at hi3
        exact h2 hi3
      · have := hs (low + Int.tdiv (high - low) 2) i (by omega) hlt (by omega)
        rw [hi3] at this
        omega
    exact ih hl (by omega) i hi1 (by omega) hi3
  | case3 low high h1 mid h2 h3 ih =>
    intro hl hh i hi1 hi2 hi3
    have hme : mid = low + Int.tdiv (high - low) 2 := rfl
    have hmb : low ≤ mid ∧ mid ≤ high := by
      rw [hme, Int.tdiv_eq_ediv (by omega) (by omega)]
      omega
    rw [hme] at h2 h3 ih
    rw [binarySearchLoop_eq_right arr target flags low high h1 h2 h3]
    have higt : low + Int.tdiv (high - low) 2 < i := by
      by_contra hge
      have hge2 : i ≤ low + Int.tdiv (high - low) 2 := by omega
      rcases eq_or_lt_of_le hge2 with he | hlt
      · rw [he] at hi3
        exact h2 hi3
      · have := hs i (low + Int.tdiv (high - low) 2) (by omega) hlt (by omega)
        rw [hi3] at this
        omega
    exact ih (by omega) hh i (by omega) hi2 hi3
  | case4 low high h1 =>
    intro hl hh i hi1 hi2 hi3
    omega

theorem binarySearchLoop_notfound (arr : Int → Nat) (target : Nat) (n : Int)
    (habs : ∀ j, 0 ≤ j → j < n → arr j ≠ target) (flags : Int → Int) :
    ∀ (low high : Int), 0 ≤ low → high ≤ n - 1 →
    binarySearchLoop arr target flags low high = (flags, -1) := by
  intro low high
  induction low, high using binarySearchLoop.induct arr target flags with
  | case1 low high h1 mid h2 =>
    intro hl hh
    have hme : mid = low + Int.tdiv (high - low) 2 := rfl
    have hmb : low ≤ mid ∧ mid ≤ high := by
      rw [hme, Int.tdiv_eq_ediv (by omega) (by omega)]
      omega
    rw [hme] at h2
    exact absurd h2 (habs (low + Int.tdiv (high - low) 2) (by omega) (by omega))
  | case2 low high h1 mid h2 h3 ih =>
    intro hl hh
    have hme : mid = low + Int.tdiv (high - low) 2 := rfl
    have hmb : low ≤ mid ∧ mid ≤ high := by
      rw [hme, Int.tdiv_eq_ediv (by omega) (by omega)]
      omega
    rw [hme] at h2 h3 ih
    rw [binarySearchLoop_eq_left arr target flags low high h1 h2 h3]
    exact ih hl (by omega)
  | case3 low high h1 mid h2 h3 ih =>
    intro hl hh
    have hme : mid = low + Int.tdiv (high - low) 2 := rfl
    have hmb : low ≤ mid ∧ mid ≤ high := by
      rw [hme, Int.tdiv_eq_ediv (by omega) (by omega)]
      omega
    rw [hme] at h2 h3 ih
    rw [binarySearchLoop_eq_right arr target flags low high h1 h2 h3]
    exact ih (by omega) hh
  | case4 low high h1 =>
    intro hl hh
    exact binarySearchLoop_eq_stop arr target flags low high h1

/-- **C4.** For every strictly sorted array `arr` of length `n` and every
0/1-valued flags array: if the target occurs in `arr` (at its unique index
`i`), `binary_search_mark(arr, n, target, flags)` returns `i` and afterwards
`flags[i] = 1`, with no other flag changed (the key array is never written);
if the target does not occur, it returns `-1` and no flag is changed. -/
theorem C4_binary_search_mark_correct (arr : Int → Nat) (n : Int) (target : Nat)
    (flags : Int → Int)
    (hs : ∀ p q, 0 ≤ p → p < q → q < n → arr p < arr q)
    (hb : ∀ j, flags j = 0 ∨ flags j = 1) :
    (∀ i, 0 ≤ i → i < n → arr i = target →
      ((binary_search_mark arr n target flags).2 = i ∧
        (binary_search_mark arr n target flags).1 i = 1 ∧
        (∀ j, j ≠ i → (binary_search_mark arr n target flags).1 j = flags j))) ∧
    ((∀ j, 0 ≤ j → j < n → arr j ≠ target) →
      binary_search_mark arr n target flags = (flags, -1)) := by
  constructor
  · intro i hi1 hi2 hi3
    obtain ⟨c1, c2, c3⟩ := binarySearchLoop_found arr target n hs flags 0 (n - 1)
      (le_refl 0) (le_refl (n - 1)) i hi1 (by omega) hi3
    rw [binary_search_mark]
    refine ⟨c1, ?_, c3⟩
    rw [c2]
    rcases hb i with h0 | h1
    · rw [if_pos h0]
    · rw [h1]
      simp
  · intro habs
    rw [binary_search_mark]
    exact binarySearchLoop_notfound arr target n habs flags 0 (n - 1)
      (le_refl 0) (le_refl (n - 1))

theorem C4_binary_search_mark_correct_witness :
    (binary_search_mark (fun i => i.toNat) 2 1 (fun _ => 0)).2 = 1 ∧
    (binary_search_mark (fun i => i.toNat) 2 1 (fun _ => 0)).1 1 = 1 ∧
    (∀ j, j ≠ 1 → (binary_search_mark (fun i => i.toNat) 2 1 (fun _ => 0)).1 j =
      (fun _ => (0 : Int)) j) :=
  (C4_binary_search_mark_correct (fun i => i.toNat) 2 1 (fun _ => 0)
    (by intro p q h1 h2 h3; simp only []; omega)
    (by intro j; left; rfl)).1 1 (by decide) (by decide) (by decide)

/-! ## `forkscan-changed/avl.c`: the ordered registry

The AVL tree with a per-node `marked` bit, translated node by node.  The C
struct `avl_node` becomes an inductive type; `NULL` becomes `avl_node.nil`.
The `avl_tree` wrapper only holds the root pointer, so trees are represented
by their root node.  `size_t` keys become `Nat` (only compared, never
computed with); the `int` height field is always non-negative in every tree
the code builds, so it is modelled as `Nat`. -/

inductive avl_node where
  | nil : avl_node
  | node (key : Nat) (height : Nat) (marked : Bool) (left right : avl_node) : avl_node
deriving DecidableEq

/-- `height(node)` from avl.c — the stored height field, 0 for NULL. -/
def height : avl_node → Nat
  | avl_node.nil => 0
  | avl_node.node _ h _ _ _ => h

/-- `max_int(a, b)` from avl.c. -/
def max_int (a b : Nat) : Nat := if a > b then a else b

/-- `new_node(key)` from avl.c. -/
def new_node (key : Nat) : avl_node :=
  avl_node.node key 1 false avl_node.nil avl_node.nil

/-- `node->key`, guarded in the source by non-NULL checks (the balance
conditions); reading it on `nil` would be a NULL dereference in C. -/
def node_key : avl_node → Nat
  | avl_node.nil => 0
  | avl_node.node k _ _ _ _ => k

/-- `node->marked`. -/
def node_marked : avl_node → Bool
  | avl_node.nil => false
  | avl_node.node _ _ m _ _ => m

/-- `right_rotate(y)` from avl.c.  `y->height` is recomputed first (from its
new children `T2` and `r`), then `x->height` (from `a` and the new `y`).
The source is only ever called with `y` and `y->left` non-NULL; on any other
shape the C code would dereference NULL, and the model returns the input. -/
def right_rotate : avl_node → avl_node
  | avl_node.node ky _ my (avl_node.node kx _ mx a t2) r =>
      avl_node.node kx (max_int (height a) (max_int (height t2) (height r) + 1) + 1) mx
        a (avl_node.node ky (max_int (height t2) (height r) + 1) my t2 r)
  | t => t

/-- `left_rotate(x)` from avl.c. -/
def left_rotate : avl_node → avl_node
  | avl_node.node kx _ mx l (avl_node.node ky _ my t2 r) =>
      avl_node.node ky (max_int (max_int (height l) (height t2) + 1) (height r) + 1) my
        (avl_node.node kx (max_int (height l) (height t2) + 1) mx l t2) r
  | t => t

/-- `get_balance(node)` from avl.c. -/
def get_balance : avl_node → Int
  | avl_node.nil => 0
  | avl_node.node _ _ _ l r => (height l : Int) - (height r : Int)

/-- The tail of `insert_node` after the recursive descent: the height update
`node->height = 1 + max_int(...)` followed by the four rebalancing cases.
`key` is the inserted key, `k`/`m` the node's key and mark, `l`/`r` its
(post-recursion) children. -/
def insert_fix (key k : Nat) (m : Bool) (l r : avl_node) : avl_node :=
  if 1 < get_balance (avl_node.node k (1 + max_int (height l) (height r)) m l r) ∧
      key < node_key l then
    right_rotate (avl_node.node k (1 + max_int (height l) (height r)) m l r)
  else if get_balance (avl_node.node k (1 + max_int (height l) (height r)) m l r) < -1 ∧
      node_key r < key then
    left_rotate (avl_node.node k (1 + max_int (height l) (height r)) m l r)
  else if 1 < get_balance (avl_node.node k (1 + max_int (height l) (height r)) m l r) ∧
      node_key l < key then
    right_rotate (avl_node.node k (1 + max_int (height l) (height r)) m (left_rotate l) r)
  else if get_balance (avl_node.node k (1 + max_int (height l) (height r)) m l r) < -1 ∧
      key < node_key r then
    left_rotate (avl_node.node k (1 + max_int (height l) (height r)) m l (right_rotate r))
  else avl_node.node k (1 + max_int (height l) (height r)) m l r

/-- `insert_node(node, key, &inserted)` from avl.c; the out-parameter
`inserted` becomes the second component of the result. -/
def insert_node : avl_node → Nat → avl_node × Bool
  | avl_node.nil, key => (new_node key, true)
  | avl_node.node k h m l r, key =>
    if key < k then
      (insert_fix key k m (insert_node l key).1 r, (insert_node l key).2)
    else if k < key then
      (insert_fix key k m l (insert_node r key).1, (insert_node r key).2)
    else (avl_node.node k h m l r, false)

/-- `contains_node(node, key)` from avl.c. -/
def contains_node : avl_node → Nat → Bool
  | avl_node.nil, _ => false
  | avl_node.node k _ _ l r, key =>
    if key = k then true
    else if key < k then contains_node l key
    else contains_node r key

/-- `mark_node(node, key, &found)` from avl.c; the out-parameter `found`
becomes the second component.  On a hit the flag is written only when it is
still clear (`if (!node->marked) node->marked = 1`). -/
def mark_node : avl_node → Nat → avl_node × Bool
  | avl_node.nil, _ => (avl_node.nil, false)
  | avl_node.node k h m l r, key =>
    if key = k then (avl_node.node k h (if m then m else true) l r, true)
    else if key < k then
      ((avl_node.node k h m (mark_node l key).1 r), (mark_node l key).2)
    else
      ((avl_node.node k h m l (mark_node r key).1), (mark_node r key).2)

/-- `avl_create()` — an empty tree (NULL root). -/
def avl_create : avl_node := avl_node.nil

/-- `avl_insert(tree, key)`: the new tree (root) and the return value. -/
def avl_insert (t : avl_node) (key : Nat) : avl_node × Bool :=
  insert_node t key

/-- `avl_contains(tree, key)`. -/
def avl_contains (t : avl_node) (key : Nat) : Bool :=
  contains_node t key

/-- `avl_mark(tree, key)`: the new tree and the `found` flag the C function
returns. -/
def avl_mark (t : avl_node) (key : Nat) : avl_node × Bool :=
  mark_node t key

/-- `avl_build_from_array(keys, n)` from avl.c: repeated `avl_insert` into a
fresh tree, in array order. -/
def avl_build_from_array (keys : List Nat) : avl_node :=
  keys.foldl (fun t k => (avl_insert t k).1) avl_create

/-- `inorder_traverse(node, f, data)` from avl.c: the visitor threads `data`
through an in-order walk. -/
def inorder_traverse (f : avl_node → β → β) : avl_node → β → β
  | avl_node.nil, data => data
  | avl_node.node k h m l r, data =>
      inorder_traverse f r (f (avl_node.node k h m l r) (inorder_traverse f l data))

/-- `avl_inorder(tree, f, data)` from avl.c. -/
def avl_inorder (t : avl_node) (f : avl_node → β → β) (data : β) : β :=
  inorder_traverse f t data

/-- The in-order key sequence of a tree (what a key-collecting visitor passed
to `avl_inorder` observes; see `avl_inorder_keys`). -/
def inorder_keys : avl_node → List Nat
  | avl_node.nil => []
  | avl_node.node k _ _ l r => inorder_keys l ++ k :: inorder_keys r

/-- The in-order (key, marked) sequence of a tree. -/
def inorder_pairs : avl_node → List (Nat × Bool)
  | avl_node.nil => []
  | avl_node.node k _ m l r => inorder_pairs l ++ (k, m) :: inorder_pairs r

/-- The stored height fields are consistent: at every node,
`height = 1 + max(height left, height right)`. -/
def HeightOk : avl_node → Prop
  | avl_node.nil => True
  | avl_node.node _ h _ l r => h = 1 + max_int (height l) (height r) ∧ HeightOk l ∧ HeightOk r

/-- The AVL balance invariant: at every node the children's heights differ
by at most one. -/
def BalancedOk : avl_node → Prop
  | avl_node.nil => True
  | avl_node.node _ _ _ l r =>
      (height l : Int) - (height r : Int) ≤ 1 ∧ (height r : Int) - (height l : Int) ≤ 1 ∧
      BalancedOk l ∧ BalancedOk r

theorem max_int_eq (a b : Nat) : max_int a b = max a b := by
  rw [max_int]
  split_ifs <;> omega

theorem height_nil : height avl_node.nil = 0 := rfl

theorem height_node (k h : Nat) (m : Bool) (l r : avl_node) :
    height (avl_node.node k h m l r) = h := rfl

theorem get_balance_node (k h : Nat) (m : Bool) (l r : avl_node) :
    get_balance (avl_node.node k h m l r) = (height l : Int) - (height r : Int) := rfl

theorem node_key_node (k h : Nat) (m : Bool) (l r : avl_node) :
    node_key (avl_node.node k h m l r) = k := rfl

theorem node_of_height_pos (t : avl_node) (h : 0 < height t) :
    ∃ k h2 m l r, t = avl_node.node k h2 m l r := by
  cases t with
  | nil => exact absurd h (by rw [height_nil]; omega)
  | node k h2 m l r => exact ⟨k, h2, m, l, r, rfl⟩

/-! ### Unfolding lemmas for `insert_node` and `insert_fix` -/

theorem insert_node_nil (key : Nat) :
    insert_node avl_node.nil key = (new_node key, true) := rfl

theorem insert_node_lt (k h : Nat) (m : Bool) (l r : avl_node) (key : Nat) (hk : key < k) :
    insert_node (avl_node.node k h m l r) key =
      (insert_fix key k m (insert_node l key).1 r, (insert_node l key).2) := by
  rw [insert_node, if_pos hk]

theorem insert_node_gt (k h : Nat) (m : Bool) (l r : avl_node) (key : Nat) (hk : k < key) :
    insert_node (avl_node.node k h m l r) key =
      (insert_fix key k m l (insert_node r key).1, (insert_node r key).2) := by
  rw [insert_node, if_neg (by omega), if_pos hk]

theorem insert_node_dup (k h : Nat) (m : Bool) (l r : avl_node) (key : Nat) (hk : key = k) :
    insert_node (avl_node.node k h m l r) key = (avl_node.node k h m l r, false) := by
  rw [insert_node, if_neg (by omega), if_neg (by omega)]

theorem insert_fix_nochange (key k : Nat) (m : Bool) (l r : avl_node)
    (h1 : (height l : Int) - (height r : Int) ≤ 1)
    (h2 : (-1 : Int) ≤ (height l : Int) - (height r : Int)) :
    insert_fix key k m l r = avl_node.node k (1 + max_int (height l) (height r)) m l r := by
  rw [insert_fix, get_balance_node]
  rw [if_neg (by omega : ¬ (1 < (height l : Int) - height r ∧ key < node_key l))]
  rw [if_neg (by omega : ¬ ((height l : Int) - height r < -1 ∧ node_key r < key))]
  rw [if_neg (by omega : ¬ (1 < (height l : Int) - height r ∧ node_key l < key))]
  rw [if_neg (by omega : ¬ ((height l : Int) - height r < -1 ∧ key < node_key r))]

theorem insert_fix_rr (key k : Nat) (m : Bool) (l r : avl_node)
    (h1 : 1 < (height l : Int) - (height r : Int)) (h2 : key < node_key l) :
    insert_fix key k m l r =
      right_rotate (avl_node.node k (1 + max_int (height l) (height r)) m l r) := by
  rw [insert_fix, get_balance_node]
  rw [if_pos (And.intro h1 h2)]

theorem insert_fix_lrrr (key k : Nat) (m : Bool) (l r : avl_node)
    (h1 : 1 < (height l : Int) - (height r : Int)) (h2 : node_key l < key) :
    insert_fix key k m l r =
      right_rotate (avl_node.node k (1 + max_int (height l) (height r)) m (left_rotate l) r) := by
  rw [insert_fix, get_balance_node]
  rw [if_neg (by omega : ¬ (1 < (height l : Int) - height r ∧ key < node_key l))]
  rw [if_neg (by omega : ¬ ((height l : Int) - height r < -1 ∧ node_key r < key))]
  rw [if_pos (And.intro h1 h2)]

theorem insert_fix_ll (key k : Nat) (m : Bool) (l r : avl_node)
    (h1 : (height l : Int) - (height r : Int) < -1) (h2 : node_key r < key) :
    insert_fix key k m l r =
      left_rotate (avl_node.node k (1 + max_int (height l) (height r)) m l r) := by
  rw [insert_fix, get_balance_node]
  rw [if_neg (by omega : ¬ (1 < (height l : Int) - height r ∧ key < node_key l))]
  rw [if_pos (And.intro h1 h2)]

theorem insert_fix_rlll (key k : Nat) (m : Bool) (l r : avl_node)
    (h1 : (height l : Int) - (height r : Int) < -1) (h2 : key < node_key r) :
    insert_fix key k m l r =
      left_rotate (avl_node.node k (1 + max_int (height l) (height r)) m l (right_rotate r)) := by
  rw [insert_fix, get_balance_node]
  rw [if_neg (by omega : ¬ (1 < (height l : Int) - height r ∧ key < node_key l))]
  rw [if_neg (by omega : ¬ ((height l : Int) - height r < -1 ∧ node_key r < key))]
  rw [if_neg (by omega : ¬ (1 < (height l : Int) - height r ∧ node_key l < key))]
  rw [if_pos (And.intro h1 h2)]

theorem right_rotate_node (ky hy : Nat) (my : Bool) (kx hx : Nat) (mx : Bool)
    (a t2 r : avl_node) :
    right_rotate (avl_node.node ky hy my (avl_node.node kx hx mx a t2) r) =
      avl_node.node kx (max_int (height a) (max_int (height t2) (height r) + 1) + 1) mx
        a (avl_node.node ky (max_int (height t2) (height r) + 1) my t2 r) := rfl

theorem left_rotate_node (kx hx : Nat) (mx : Bool) (ky hy : Nat) (my : Bool)
    (l t2 r : avl_node) :
    left_rotate (avl_node.node kx hx mx l (avl_node.node ky hy my t2 r)) =
      avl_node.node ky (max_int (max_int (height l) (height t2) + 1) (height r) + 1) my
        (avl_node.node kx (max_int (height l) (height t2) + 1) mx l t2) r := rfl

/-! ### `insert_node` preserves the AVL invariants

The induction carries three auxiliary facts besides the invariants: the
height grows by at most one; and when it does grow (to at least 2), the new
root's taller side is the one the inserted key compares into — exactly the
information the source's key-comparing rebalancing conditions rely on. -/

theorem insert_node_avl (key : Nat) :
    ∀ t : avl_node, HeightOk t → BalancedOk t →
    (HeightOk (insert_node t key).1 ∧ BalancedOk (insert_node t key).1 ∧
      (height (insert_node t key).1 = height t ∨
        height (insert_node t key).1 = height t + 1) ∧
      (height (insert_node t key).1 = height t + 1 → 2 ≤ height (insert_node t key).1 →
        ∃ k2 h2 m2 a b, (insert_node t key).1 = avl_node.node k2 h2 m2 a b ∧
          ((key < k2 ∧ height a = height b + 1) ∨
            (k2 < key ∧ height b = height a + 1)))) := by
  intro t
  induction t with
  | nil =>
    intro _ _
    refine ⟨⟨by decide, trivial, trivial⟩, ⟨by decide, by decide, trivial, trivial⟩,
      Or.inr rfl, ?_⟩
    intro hg habs
    have hone : height (insert_node avl_node.nil key).1 = 1 := rfl
    omega
  | node k h m l r ihl ihr =>
    intro hOk hBal
    obtain ⟨hOkh, hOkl, hOkr⟩ := hOk
    obtain ⟨hBal1, hBal2, hBall, hBalr⟩ := hBal
    by_cases hklt : key < k
    · obtain ⟨jOk, jBal, jGrow, jShape⟩ := ihl hOkl hBall
      rw [insert_node_lt k h m l r key hklt]
      simp only []
      rcases jGrow with hsame | hgrow
      · rw [insert_fix_nochange key k m (insert_node l key).1 r (by omega) (by omega)]
        refine ⟨⟨?_, jOk, hOkr⟩, ⟨?_, ?_, jBal, hBalr⟩, ?_, ?_⟩
        · first
          | omega
          | (simp only [height_node, max_int_eq] at *; omega)
        · first
          | omega
          | (simp only [height_node, max_int_eq] at *; omega)
        · first
          | omega
          | (simp only [height_node, max_int_eq] at *; omega)
        · left
          first
          | omega
          | (simp only [height_node, max_int_eq] at *; omega)
        · intro hgrowth habs
          first
          | omega
          | (simp only [height_node, max_int_eq] at *; omega)
      · by_cases hb2 : (height (insert_node l key).1 : Int) - (height r : Int) ≤ 1
        · rw [insert_fix_nochange key k m (insert_node l key).1 r hb2 (by omega)]
          by_cases hreq : height r = height l + 1
          · refine ⟨⟨?_, jOk, hOkr⟩, ⟨?_, ?_, jBal, hBalr⟩, ?_, ?_⟩
            · first
              | omega
              | (simp only [height_node, max_int_eq] at *; omega)
            · first
              | omega
              | (simp only [height_node, max_int_eq] at *; omega)
            · first
              | omega
              | (simp only [height_node, max_int_eq] at *; omega)
            · left
              first
              | omega
              | (simp only [height_node, max_int_eq] at *; omega)
            · intro hgrowth habs
              first
              | omega
              | (simp only [height_node, max_int_eq] at *; omega)
          · have hre : height r = height l := by omega
            refine ⟨⟨?_, jOk, hOkr⟩, ⟨?_, ?_, jBal, hBalr⟩, ?_, ?_⟩
            · first
              | omega
              | (simp only [height_node, max_int_eq] at *; omega)
            · first
              | omega
              | (simp only [height_node, max_int_eq] at *; omega)
            · first
              | omega
              | (simp only [height_node, max_int_eq] at *; omega)
            · right
              first
              | omega
              | (simp only [height_node, max_int_eq] at *; omega)
            · intro hgrowth habs
              refine ⟨k, 1 + max_int (height (insert_node l key).1) (height r), m,
                (insert_node l key).1, r, rfl, Or.inl ⟨hklt, by omega⟩⟩
        · have hl2r : height (insert_node l key).1 = height r + 2 := by
            simp only [max_int_eq] at hOkh
            omega
          obtain ⟨k2, h2, m2, a, b, hl2eq, hdich⟩ := jShape hgrow (by omega)
          rw [hl2eq] at jOk jBal hgrow hl2r
          rw [height_node] at hgrow hl2r
          obtain ⟨jOk1, jOka, jOkb⟩ := jOk
          obtain ⟨jBal1, jBal2, jBala, jBalb⟩ := jBal
          rw [max_int_eq] at jOk1
          rw [hl2eq]
          rcases hdich with ⟨hkk2, hab⟩ | ⟨hk2k, hba⟩
          · -- left-left: single right rotation
            have hha : height a = height r + 1 := by omega
            have hhb : height b = height r := by omega
            rw [insert_fix_rr key k m (avl_node.node k2 h2 m2 a b) r
              (by rw [height_node]; omega) (by rw [node_key_node]; exact hkk2)]
            rw [right_rotate_node]
            refine ⟨⟨?_, jOka, ?_, jOkb, hOkr⟩, ⟨?_, ?_, jBala, ?_, ?_, jBalb, hBalr⟩,
              ?_, ?_⟩
            · first
              | omega
              | (simp only [height_node, max_int_eq] at *; omega)
            · first
              | omega
              | (simp only [height_node, max_int_eq] at *; omega)
            · first
              | omega
              | (simp only [height_node, max_int_eq] at *; omega)
            · first
              | omega
              | (simp only [height_node, max_int_eq] at *; omega)
            · first
              | omega
              | (simp only [height_node, max_int_eq] at *; omega)
            · first
              | omega
              | (simp only [height_node, max_int_eq] at *; omega)
            · left
              first
              | omega
              | (simp only [height_node, max_int_eq] at *; omega)
            · intro hgrowth habs
              first
              | omega
              | (simp only [height_node, max_int_eq] at *; omega)
          · -- left-right: rotate the left child left, then right-rotate
            have hhb : height b = height r + 1 := by omega
            have hha : height a = height r := by omega
            obtain ⟨k3, h3, m3, p, q, hbeq⟩ := node_of_height_pos b (by omega)
            rw [hbeq] at jOkb jBalb hhb
            rw [height_node] at hhb
            obtain ⟨jOkb1, jOkp, jOkq⟩ := jOkb
            obtain ⟨jBb1, jBb2, jBalp, jBalq⟩ := jBalb
            rw [max_int_eq] at jOkb1
            rw [hbeq]
            rw [insert_fix_lrrr key k m
              (avl_node.node k2 h2 m2 a (avl_node.node k3 h3 m3 p q)) r
              (by rw [height_node]; omega) (by rw [node_key_node]; exact hk2k)]
            rw [left_rotate_node, right_rotate_node]
            refine ⟨⟨?_, ⟨?_, jOka, jOkp⟩, ?_, jOkq, hOkr⟩,
              ⟨?_, ?_, ⟨?_, ?_, jBala, jBalp⟩, ?_, ?_, jBalq, hBalr⟩, ?_, ?_⟩
            · first
              | omega
              | (simp only [height_node, max_int_eq] at *; omega)
            · first
              | omega
              | (simp only [height_node, max_int_eq] at *; omega)
            · first
              | omega
              | (simp only [height_node, max_int_eq] at *; omega)
            · first
              | omega
              | (simp only [height_node, max_int_eq] at *; omega)
            · first
              | omega
              | (simp only [height_node, max_int_eq] at *; omega)
            · first
              | omega
              | (simp only [height_node, max_int_eq] at *; omega)
            · first
              | omega
              | (simp only [height_node, max_int_eq] at *; omega)
            · first
              | omega
              | (simp only [height_node, max_int_eq] at *; omega)
            · first
              | omega
              | (simp only [height_node, max_int_eq] at *; omega)
            · left
              first
              | omega
              | (simp only [height_node, max_int_eq] at *; omega)
            · intro hgrowth habs
              first
              | omega
              | (simp only [height_node, max_int_eq] at *; omega)
    · by_cases hkgt : k < key
      · obtain ⟨jOk, jBal, jGrow, jShape⟩ := ihr hOkr hBalr
        rw [insert_node_gt k h m l r key hkgt]
        simp only []
        rcases jGrow with hsame | hgrow
        · rw [insert_fix_nochange key k m l (insert_node r key).1 (by omega) (by omega)]
          refine ⟨⟨?_, hOkl, jOk⟩, ⟨?_, ?_, hBall, jBal⟩, ?_, ?_⟩
          · first
            | omega
            | (simp only [height_node, max_int_eq] at *; omega)
          · first
            | omega
            | (simp only [height_node, max_int_eq] at *; omega)
          · first
            | omega
            | (simp only [height_node, max_int_eq] at *; omega)
          · left
            first
            | omega
            | (simp only [height_node, max_int_eq] at *; omega)
          · intro hgrowth habs
            first
            | omega
            | (simp only [height_node, max_int_eq] at *; omega)
        · by_cases hb2 : (-1 : Int) ≤ (height l : Int) - (height (insert_node r key).1 : Int)
          · rw [insert_fix_nochange key k m l (insert_node r key).1 (by omega) hb2]
            by_cases hleq : height l = height r + 1
            · refine ⟨⟨?_, hOkl, jOk⟩, ⟨?_, ?_, hBall, jBal⟩, ?_, ?_⟩
              · first
                | omega
                | (simp only [height_node, max_int_eq] at *; omega)
              · first
                | omega
                | (simp only [height_node, max_int_eq] at *; omega)
              · first
                | omega
                | (simp only [height_node, max_int_eq] at *; omega)
              · left
                first
                | omega
                | (simp only [height_node, max_int_eq] at *; omega)
              · intro hgrowth habs
                first
                | omega
                | (simp only [height_node, max_int_eq] at *; omega)
            · have hre : height l = height r := by omega
              refine ⟨⟨?_, hOkl, jOk⟩, ⟨?_, ?_, hBall, jBal⟩, ?_, ?_⟩
              · first
                | omega
                | (simp only [height_node, max_int_eq] at *; omega)
              · first
                | omega
                | (simp only [height_node, max_int_eq] at *; omega)
              · first
                | omega
                | (simp only [height_node, max_int_eq] at *; omega)
              · right
                first
                | omega
                | (simp only [height_node, max_int_eq] at *; omega)
              · intro hgrowth habs
                refine ⟨k, 1 + max_int (height l) (height (insert_node r key).1), m,
                  l, (insert_node r key).1, rfl, Or.inr ⟨hkgt, by omega⟩⟩
          · have hr2l : height (insert_node r key).1 = height l + 2 := by
              simp only [max_int_eq] at hOkh
              omega
            obtain ⟨k2, h2, m2, a, b, hr2eq, hdich⟩ := jShape hgrow (by omega)
            rw [hr2eq] at jOk jBal hgrow hr2l
            rw [height_node] at hgrow hr2l
            obtain ⟨jOk1, jOka, jOkb⟩ := jOk
            obtain ⟨jBal1, jBal2, jBala, jBalb⟩ := jBal
            rw [max_int_eq] at jOk1
            rw [hr2eq]
            rcases hdich with ⟨hkk2, hab⟩ | ⟨hk2k, hba⟩
            · -- right-left: rotate the right child right, then left-rotate
              have hha : height a = height l + 1 := by omega
              have hhb : height b = height l := by omega
              obtain ⟨k3, h3, m3, p, q, haeq⟩ := node_of_height_pos a (by omega)
              rw [haeq] at jOka jBala hha
              rw [height_node] at hha
              obtain ⟨jOka1, jOkp, jOkq⟩ := jOka
              obtain ⟨jBa1, jBa2, jBalp, jBalq⟩ := jBala
              rw [max_int_eq] at jOka1
              rw [haeq]
              rw [insert_fix_rlll key k m l
                (avl_node.node k2 h2 m2 (avl_node.node k3 h3 m3 p q) b)
                (by rw [height_node]; omega) (by rw [node_key_node]; exact hkk2)]
              rw [right_rotate_node, left_rotate_node]
              refine ⟨⟨?_, ⟨?_, hOkl, jOkp⟩, ?_, jOkq, jOkb⟩,
                ⟨?_, ?_, ⟨?_, ?_, hBall, jBalp⟩, ?_, ?_, jBalq, jBalb⟩, ?_, ?_⟩
              · first
                | omega
                | (simp only [height_node, max_int_eq] at *; omega)
              · first
                | omega
                | (simp only [height_node, max_int_eq] at *; omega)
              · first
                | omega
                | (simp only [height_node, max_int_eq] at *; omega)
              · first
                | omega
                | (simp only [height_node, max_int_eq] at *; omega)
              · first
                | omega
                | (simp only [height_node, max_int_eq] at *; omega)
              · first
                | omega
                | (simp only [height_node, max_int_eq] at *; omega)
              · first
                | omega
                | (simp only [height_node, max_int_eq] at *; omega)
              · first
                | omega
                | (simp only [height_node, max_int_eq] at *; omega)
              · first
                | omega
                | (simp only [height_node, max_int_eq] at *; omega)
              · left
                first
                | omega
                | (simp only [height_node, max_int_eq] at *; omega)
              · intro hgrowth habs
                first
                | omega
                | (simp only [height_node, max_int_eq] at *; omega)
            · -- right-right: single left rotation
              have hhb : height b = height l + 1 := by omega
              have hha : height a = height l := by omega
              rw [insert_fix_ll key k m l (avl_node.node k2 h2 m2 a b)
                (by rw [height_node]; omega) (by rw [node_key_node]; exact hk2k)]
              rw [left_rotate_node]
              refine ⟨⟨?_, ⟨?_, hOkl, jOka⟩, jOkb⟩,
                ⟨?_, ?_, ⟨?_, ?_, hBall, jBala⟩, jBalb⟩, ?_, ?_⟩
              · first
                | omega
                | (simp only [height_node, max_int_eq] at *; omega)
              · first
                | omega
                | (simp only [height_node, max_int_eq] at *; omega)
              · first
                | omega
                | (simp only [height_node, max_int_eq] at *; omega)
              · first
                | omega
                | (simp only [height_node, max_int_eq] at *; omega)
              · first
                | omega
                | (simp only [height_node, max_int_eq] at *; omega)
              · first
                | omega
                | (simp only [height_node, max_int_eq] at *; omega)
              · left
                first
                | omega
                | (simp only [height_node, max_int_eq] at *; omega)
              · intro hgrowth habs
                first
                | omega
                | (simp only [height_node, max_int_eq] at *; omega)
      · have hkeq : key = k := by omega
        rw [insert_node_dup k h m l r key hkeq]
        simp only []
        refine ⟨⟨hOkh, hOkl, hOkr⟩, ⟨hBal1, hBal2, hBall, hBalr⟩, ?_, ?_⟩
        · first
          | exact Or.inl rfl
          | exact Or.inl trivial
        · intro hgrowth habs
          omega

/-- **C2.** After any finite sequence of `avl_insert` calls into a tree
created empty by `avl_create`, every node satisfies
`|height(left) − height(right)| ≤ 1`, and every stored height field equals
1 plus the maximum of its children's heights. -/
theorem C2_avl_balance_invariant (ks : List Nat) :
    HeightOk (ks.foldl (fun t k => (avl_insert t k).1) avl_create) ∧
    BalancedOk (ks.foldl (fun t k => (avl_insert t k).1) avl_create) := by
  have H : ∀ (ks : List Nat) (t : avl_node), HeightOk t → BalancedOk t →
      HeightOk (ks.foldl (fun t k => (avl_insert t k).1) t) ∧
      BalancedOk (ks.foldl (fun t k => (avl_insert t k).1) t) := by
    intro ks
    induction ks with
    | nil =>
      intro t h1 h2
      exact ⟨h1, h2⟩
    | cons x xs ih =>
      intro t h1 h2
      obtain ⟨j1, j2, _, _⟩ := insert_node_avl x t h1 h2
      exact ih ((avl_insert t x).1) j1 j2
  exact H ks avl_create trivial trivial

/-! ### The in-order sequence under rotations, insertion and marking -/

theorem inorder_keys_node (k h : Nat) (m : Bool) (l r : avl_node) :
    inorder_keys (avl_node.node k h m l r) = inorder_keys l ++ k :: inorder_keys r := rfl

theorem inorder_keys_right_rotate (t : avl_node) :
    inorder_keys (right_rotate t) = inorder_keys t := by
  cases t with
  | nil => rfl
  | node ky hy my l r =>
    cases l with
    | nil => rfl
    | node kx hx mx a t2 =>
      rw [right_rotate_node]
      simp [inorder_keys, List.append_assoc]

theorem inorder_keys_left_rotate (t : avl_node) :
    inorder_keys (left_rotate t) = inorder_keys t := by
  cases t with
  | nil => rfl
  | node kx hx mx l r =>
    cases r with
    | nil => rfl
    | node ky hy my t2 b =>
      rw [left_rotate_node]
      simp [inorder_keys, List.append_assoc]

theorem inorder_keys_insert_fix (key k : Nat) (m : Bool) (l r : avl_node) :
    inorder_keys (insert_fix key k m l r) = inorder_keys l ++ k :: inorder_keys r := by
  rw [insert_fix]
  split_ifs <;>
    simp [inorder_keys_right_rotate, inorder_keys_left_rotate, inorder_keys]

theorem mem_insert_of_mem (key x : Nat) :
    ∀ t : avl_node, x ∈ inorder_keys (insert_node t key).1 → x = key ∨ x ∈ inorder_keys t := by
  intro t
  induction t with
  | nil =>
    intro hx
    rw [insert_node_nil] at hx
    simp only [new_node, inorder_keys] at hx
    rcases hx with hx
    simp at hx
    exact Or.inl hx
  | node k h m l r ihl ihr =>
    intro hx
    by_cases hklt : key < k
    · rw [insert_node_lt k h m l r key hklt] at hx
      simp only [] at hx
      rw [inorder_keys_insert_fix] at hx
      rw [inorder_keys_node]
      simp only [List.mem_append, List.mem_cons] at hx ⊢
      rcases hx with hx | hx | hx
      · rcases ihl hx with hc | hc
        · exact Or.inl hc
        · exact Or.inr (Or.inl hc)
      · exact Or.inr (Or.inr (Or.inl hx))
      · exact Or.inr (Or.inr (Or.inr hx))
    · by_cases hkgt : k < key
      · rw [insert_node_gt k h m l r key hkgt] at hx
        simp only [] at hx
        rw [inorder_keys_insert_fix] at hx
        rw [inorder_keys_node]
        simp only [List.mem_append, List.mem_cons] at hx ⊢
        rcases hx with hx | hx | hx
        · exact Or.inr (Or.inl hx)
        · exact Or.inr (Or.inr (Or.inl hx))
        · rcases ihr hx with hc | hc
          · exact Or.inl hc
          · exact Or.inr (Or.inr (Or.inr hc))
      · rw [insert_node_dup k h m l r key (by omega)] at hx
        exact Or.inr hx

theorem mem_insert_self (key : Nat) :
    ∀ t : avl_node, key ∈ inorder_keys (insert_node t key).1 := by
  intro t
  induction t with
  | nil =>
    rw [insert_node_nil]
    simp [new_node, inorder_keys]
  | node k h m l r ihl ihr =>
    by_cases hklt : key < k
    · rw [insert_node_lt k h m l r key hklt]
      simp only []
      rw [inorder_keys_insert_fix]
      simp only [List.mem_append]
      exact Or.inl ihl
    · by_cases hkgt : k < key
      · rw [insert_node_gt k h m l r key hkgt]
        simp only []
        rw [inorder_keys_insert_fix]
        simp only [List.mem_append, List.mem_cons]
        exact Or.inr (Or.inr ihr)
      · rw [insert_node_dup k h m l r key (by omega)]
        rw [inorder_keys_node]
        simp only [List.mem_append, List.mem_cons]
        exact Or.inr (Or.inl (by omega))

theorem mem_of_mem_insert (key x : Nat) :
    ∀ t : avl_node, x ∈ inorder_keys t → x ∈ inorder_keys (insert_node t key).1 := by
  intro t
  induction t with
  | nil =>
    intro hx
    simp [inorder_keys] at hx
  | node k h m l r ihl ihr =>
    intro hx
    rw [inorder_keys_node] at hx
    simp only [List.mem_append, List.mem_cons] at hx
    by_cases hklt : key < k
    · rw [insert_node_lt k h m l r key hklt]
      simp only []
      rw [inorder_keys_insert_fix]
      simp only [List.mem_append, List.mem_cons]
      rcases hx with hx | hx | hx
      · exact Or.inl (ihl hx)
      · exact Or.inr (Or.inl hx)
      · exact Or.inr (Or.inr hx)
    · by_cases hkgt : k < key
      · rw [insert_node_gt k h m l r key hkgt]
        simp only []
        rw [inorder_keys_insert_fix]
        simp only [List.mem_append, List.mem_cons]
        rcases hx with hx | hx | hx
        · exact Or.inl hx
        · exact Or.inr (Or.inl hx)
        · exact Or.inr (Or.inr (ihr hx))
      · rw [insert_node_dup k h m l r key (by omega)]
        rw [inorder_keys_node]
        simp only [List.mem_append, List.mem_cons]
        exact hx

theorem length_inorder_insert (key : Nat) :
    ∀ t : avl_node, (inorder_keys (insert_node t key).1).length =
      (inorder_keys t).length + (if (insert_node t key).2 then 1 else 0) := by
  intro t
  induction t with
  | nil =>
    rw [insert_node_nil]
    simp [new_node, inorder_keys]
  | node k h m l r ihl ihr =>
    by_cases hklt : key < k
    · rw [insert_node_lt k h m l r key hklt]
      simp only []
      rw [inorder_keys_insert_fix, inorder_keys_node]
      simp only [List.length_append, List.length_cons]
      omega
    · by_cases hkgt : k < key
      · rw [insert_node_gt k h m l r key hkgt]
        simp only []
        rw [inorder_keys_insert_fix, inorder_keys_node]
        simp only [List.length_append, List.length_cons]
        omega
      · rw [insert_node_dup k h m l r key (by omega)]
        simp

theorem sorted_inorder_insert (key : Nat) :
    ∀ t : avl_node, List.Sorted (· < ·) (inorder_keys t) →
    List.Sorted (· < ·) (inorder_keys (insert_node t key).1) := by
  intro t
  induction t with
  | nil =>
    intro hs
    rw [insert_node_nil]
    simp [new_node, inorder_keys]
  | node k h m l r ihl ihr =>
    intro hs
    rw [inorder_keys_node, List.Sorted, List.pairwise_append] at hs
    obtain ⟨hsl, hsr2, hcross⟩ := hs
    rw [List.pairwise_cons] at hsr2
    obtain ⟨hkr, hsr⟩ := hsr2
    by_cases hklt : key < k
    · rw [insert_node_lt k h m l r key hklt]
      simp only []
      rw [inorder_keys_insert_fix, List.Sorted, List.pairwise_append]
      refine ⟨ihl hsl, ?_, ?_⟩
      · rw [List.pairwise_cons]
        exact ⟨hkr, hsr⟩
      · intro x hx y hy
        have hxk : x < k := by
          rcases mem_insert_of_mem key x l hx with hc | hc
          · omega
          · exact hcross x hc k (List.mem_cons_self k _)
        rcases List.mem_cons.mp hy with hc | hc
        · omega
        · exact lt_trans hxk (hkr y hc)
    · by_cases hkgt : k < key
      · rw [insert_node_gt k h m l r key hkgt]
        simp only []
        rw [inorder_keys_insert_fix, List.Sorted, List.pairwise_append]
        refine ⟨hsl, ?_, ?_⟩
        · rw [List.pairwise_cons]
          refine ⟨?_, ihr hsr⟩
          intro y hy
          rcases mem_insert_of_mem key y r hy with hc | hc
          · omega
          · exact hkr y hc
        · intro x hx y hy
          have hxk : x < k := hcross x hx k (List.mem_cons_self k _)
          rcases List.mem_cons.mp hy with hc | hc
          · omega
          · rcases mem_insert_of_mem key y r hc with hd | hd
            · omega
            · exact lt_trans hxk (hkr y hd)
      · rw [insert_node_dup k h m l r key (by omega)]
        rw [inorder_keys_node, List.Sorted, List.pairwise_append]
        refine ⟨hsl, ?_, hcross⟩
        rw [List.pairwise_cons]
        exact ⟨hkr, hsr⟩

theorem contains_node_mem (key : Nat) :
    ∀ t : avl_node, contains_node t key = true → key ∈ inorder_keys t := by
  intro t
  induction t with
  | nil =>
    intro hc
    simp [contains_node] at hc
  | node k h m l r ihl ihr =>
    intro hc
    rw [contains_node] at hc
    rw [inorder_keys_node]
    simp only [List.mem_append, List.mem_cons]
    by_cases he : key = k
    · exact Or.inr (Or.inl he)
    · rw [if_neg he] at hc
      by_cases hlt : key < k
      · rw [if_pos hlt] at hc
        exact Or.inl (ihl hc)
      · rw [if_neg hlt] at hc
        exact Or.inr (Or.inr (ihr hc))

theorem mem_contains_node (key : Nat) :
    ∀ t : avl_node, List.Sorted (· < ·) (inorder_keys t) →
    key ∈ inorder_keys t → contains_node t key = true := by
  intro t
  induction t with
  | nil =>
    intro _ hm
    simp [inorder_keys] at hm
  | node k h m l r ihl ihr =>
    intro hs hm
    rw [inorder_keys_node, List.Sorted, List.pairwise_append] at hs
    obtain ⟨hsl, hsr2, hcross⟩ := hs
    rw [List.pairwise_cons] at hsr2
    obtain ⟨hkr, hsr⟩ := hsr2
    rw [inorder_keys_node] at hm
    simp only [List.mem_append, List.mem_cons] at hm
    rw [contains_node]
    by_cases he : key = k
    · rw [if_pos he]
    · rw [if_neg he]
      rcases hm with hm | hm | hm
      · have : key < k := hcross key hm k (List.mem_cons_self k _)
        rw [if_pos this]
        exact ihl hsl hm
      · omega
      · have : k < key := hkr key hm
        rw [if_neg (by omega)]
        exact ihr hsr hm

theorem insert_node_snd_eq (key : Nat) :
    ∀ t : avl_node, (insert_node t key).2 = ! contains_node t key := by
  intro t
  induction t with
  | nil => rfl
  | node k h m l r ihl ihr =>
    by_cases hklt : key < k
    · rw [insert_node_lt k h m l r key hklt, contains_node]
      simp only []
      rw [if_neg (by omega), if_pos hklt]
      exact ihl
    · by_cases hkgt : k < key
      · rw [insert_node_gt k h m l r key hkgt, contains_node]
        simp only []
        rw [if_neg (by omega), if_neg (by omega)]
        exact ihr
      · rw [insert_node_dup k h m l r key (by omega), contains_node]
        simp only []
        rw [if_pos (by omega)]
        rfl

theorem insert_node_of_contains (key : Nat) :
    ∀ t : avl_node, HeightOk t → BalancedOk t → contains_node t key = true →
    insert_node t key = (t, false) := by
  intro t
  induction t with
  | nil =>
    intro _ _ hc
    simp [contains_node] at hc
  | node k h m l r ihl ihr =>
    intro hOk hBal hc
    obtain ⟨hOkh, hOkl, hOkr⟩ := hOk
    obtain ⟨hBal1, hBal2, hBall, hBalr⟩ := hBal
    rw [contains_node] at hc
    by_cases he : key = k
    · exact insert_node_dup k h m l r key he
    · rw [if_neg he] at hc
      by_cases hlt : key < k
      · rw [if_pos hlt] at hc
        rw [insert_node_lt k h m l r key hlt, ihl hOkl hBall hc]
        simp only []
        rw [insert_fix_nochange key k m l r hBal1 (by omega)]
        rw [← hOkh]
      · rw [if_neg hlt] at hc
        have hgt : k < key := by omega
        rw [insert_node_gt k h m l r key hgt, ihr hOkr hBalr hc]
        simp only []
        rw [insert_fix_nochange key k m l r hBal1 (by omega)]
        rw [← hOkh]

theorem inorder_traverse_keys :
    ∀ (t : avl_node) (acc : List Nat),
    inorder_traverse (fun nd ks => ks ++ [node_key nd]) t acc = acc ++ inorder_keys t := by
  intro t
  induction t with
  | nil =>
    intro acc
    simp [inorder_traverse, inorder_keys]
  | node k h m l r ihl ihr =>
    intro acc
    rw [inorder_traverse, ihl, ihr, inorder_keys_node, node_key_node]
    simp [List.append_assoc]

/-- A key-collecting visitor passed to `avl_inorder` observes exactly
`inorder_keys`. -/
theorem avl_inorder_keys (t : avl_node) :
    avl_inorder t (fun nd ks => ks ++ [node_key nd]) [] = inorder_keys t := by
  rw [avl_inorder, inorder_traverse_keys]
  simp

theorem sorted_build (ks : List Nat) :
    HeightOk (avl_build_from_array ks) ∧ BalancedOk (avl_build_from_array ks) ∧
    List.Sorted (· < ·) (inorder_keys (avl_build_from_array ks)) := by
  have H : ∀ (ks : List Nat) (t : avl_node), HeightOk t → BalancedOk t →
      List.Sorted (· < ·) (inorder_keys t) →
      (HeightOk (ks.foldl (fun t k => (avl_insert t k).1) t) ∧
        BalancedOk (ks.foldl (fun t k => (avl_insert t k).1) t) ∧
        List.Sorted (· < ·) (inorder_keys (ks.foldl (fun t k => (avl_insert t k).1) t))) := by
    intro ks
    induction ks with
    | nil =>
      intro t h1 h2 h3
      exact ⟨h1, h2, h3⟩
    | cons x xs ih =>
      intro t h1 h2 h3
      obtain ⟨j1, j2, _, _⟩ := insert_node_avl x t h1 h2
      exact ih ((avl_insert t x).1) j1 j2 (sorted_inorder_insert x t h3)
  exact H ks avl_create trivial trivial (by simp [avl_create, inorder_keys])

/-- **C3.** After any finite sequence of `avl_insert` calls into a tree
created empty by `avl_create`, the in-order traversal (`avl_inorder`, here
with a key-collecting visitor) visits the keys in strictly increasing
order. -/
theorem C3_avl_inorder_sorted (ks : List Nat) :
    List.Sorted (· < ·)
      (avl_inorder (ks.foldl (fun t k => (avl_insert t k).1) avl_create)
        (fun nd acc => acc ++ [node_key nd]) []) := by
  rw [avl_inorder_keys]
  exact (sorted_build ks).2.2

/-- **C6.** For every AVL tree (balanced, consistent heights, sorted
in-order sequence — the invariants of every tree the registry builds) and
every key `k` not yet in the tree: the first `avl_insert(tree, k)` returns 1
and increases the number of keys by exactly one, and an immediately
following second `avl_insert` of the same key returns 0 and leaves the tree
completely unchanged. -/
theorem C6_avl_insert_unique (t : avl_node) (key : Nat)
    (h1 : HeightOk t) (h2 : BalancedOk t)
    (h3 : List.Sorted (· < ·) (inorder_keys t))
    (h4 : key ∉ inorder_keys t) :
    (avl_insert t key).2 = true ∧
    (inorder_keys (avl_insert t key).1).length = (inorder_keys t).length + 1 ∧
    avl_insert (avl_insert t key).1 key = ((avl_insert t key).1, false) := by
  have hnc : contains_node t key = false := by
    by_cases hc : contains_node t key = true
    · exact absurd (contains_node_mem key t hc) h4
    · simp at hc
      exact hc
  have hret : (insert_node t key).2 = true := by
    rw [insert_node_snd_eq, hnc]
    rfl
  refine ⟨hret, ?_, ?_⟩
  · rw [avl_insert, length_inorder_insert, hret]
    simp
  · obtain ⟨j1, j2, _, _⟩ := insert_node_avl key t h1 h2
    have hmem : key ∈ inorder_keys (insert_node t key).1 := mem_insert_self key t
    have hsorted : List.Sorted (· < ·) (inorder_keys (insert_node t key).1) :=
      sorted_inorder_insert key t h3
    have hcont : contains_node (insert_node t key).1 key = true :=
      mem_contains_node key (insert_node t key).1 hsorted hmem
    exact insert_node_of_contains key (insert_node t key).1 j1 j2 hcont

theorem C6_avl_insert_unique_witness :
    (avl_insert avl_node.nil 7).2 = true ∧
    (inorder_keys (avl_insert avl_node.nil 7).1).length =
      (inorder_keys avl_node.nil).length + 1 ∧
    avl_insert (avl_insert avl_node.nil 7).1 7 = ((avl_insert avl_node.nil 7).1, false) :=
  C6_avl_insert_unique avl_node.nil 7 trivial trivial (by simp [inorder_keys])
    (by simp [inorder_keys])

/-! ### `mark_node` / `avl_mark` -/

theorem mark_node_nil (key : Nat) : mark_node avl_node.nil key = (avl_node.nil, false) := rfl

theorem mark_node_hit (k h : Nat) (m : Bool) (l r : avl_node) (key : Nat) (he : key = k) :
    mark_node (avl_node.node k h m l r) key =
      (avl_node.node k h (if m then m else true) l r, true) := by
  rw [mark_node, if_pos he]

theorem mark_node_lt (k h : Nat) (m : Bool) (l r : avl_node) (key : Nat) (hk : key < k) :
    mark_node (avl_node.node k h m l r) key =
      (avl_node.node k h m (mark_node l key).1 r, (mark_node l key).2) := by
  rw [mark_node, if_neg (by omega), if_pos hk]

theorem mark_node_gt (k h : Nat) (m : Bool) (l r : avl_node) (key : Nat) (hk : k < key) :
    mark_node (avl_node.node k h m l r) key =
      (avl_node.node k h m l (mark_node r key).1, (mark_node r key).2) := by
  rw [mark_node, if_neg (by omega), if_neg (by omega)]

theorem mark_if (m : Bool) : (if m then m else true) = true := by
  cases m <;> rfl

/-- Erase all `marked` bits: what remains is the tree's shape, keys and
heights. -/
def strip_marks : avl_node → avl_node
  | avl_node.nil => avl_node.nil
  | avl_node.node k h _ l r => avl_node.node k h false (strip_marks l) (strip_marks r)

theorem strip_marks_mark (key : Nat) :
    ∀ t : avl_node, strip_marks (mark_node t key).1 = strip_marks t := by
  intro t
  induction t with
  | nil => rfl
  | node k h m l r ihl ihr =>
    by_cases he : key = k
    · rw [mark_node_hit k h m l r key he]
      simp only [strip_marks]
    · by_cases hlt : key < k
      · rw [mark_node_lt k h m l r key hlt]
        simp only [strip_marks]
        rw [ihl]
      · rw [mark_node_gt k h m l r key (by omega)]
        simp only [strip_marks]
        rw [ihr]

theorem inorder_keys_mark (key : Nat) :
    ∀ t : avl_node, inorder_keys (mark_node t key).1 = inorder_keys t := by
  intro t
  induction t with
  | nil => rfl
  | node k h m l r ihl ihr =>
    by_cases he : key = k
    · rw [mark_node_hit k h m l r key he]
      rfl
    · by_cases hlt : key < k
      · rw [mark_node_lt k h m l r key hlt]
        simp only [inorder_keys_node, ihl]
      · rw [mark_node_gt k h m l r key (by omega)]
        simp only [inorder_keys_node, ihr]

theorem inorder_pairs_node (k h : Nat) (m : Bool) (l r : avl_node) :
    inorder_pairs (avl_node.node k h m l r) =
      inorder_pairs l ++ (k, m) :: inorder_pairs r := rfl

theorem inorder_pairs_fst :
    ∀ t : avl_node, (inorder_pairs t).map Prod.fst = inorder_keys t := by
  intro t
  induction t with
  | nil => rfl
  | node k h m l r ihl ihr =>
    rw [inorder_pairs_node, inorder_keys_node]
    simp only [List.map_append, List.map_cons, ihl, ihr]

theorem mark_found (key : Nat) :
    ∀ t : avl_node, List.Sorted (· < ·) (inorder_keys t) → key ∈ inorder_keys t →
    (mark_node t key).2 = true := by
  intro t
  induction t with
  | nil =>
    intro _ hm
    simp [inorder_keys] at hm
  | node k h m l r ihl ihr =>
    intro hs hm
    rw [inorder_keys_node, List.Sorted, List.pairwise_append] at hs
    obtain ⟨hsl, hsr2, hcross⟩ := hs
    rw [List.pairwise_cons] at hsr2
    obtain ⟨hkr, hsr⟩ := hsr2
    rw [inorder_keys_node] at hm
    simp only [List.mem_append, List.mem_cons] at hm
    by_cases he : key = k
    · rw [mark_node_hit k h m l r key he]
    · rcases hm with hm | hm | hm
      · have : key < k := hcross key hm k (List.mem_cons_self k _)
        rw [mark_node_lt k h m l r key this]
        exact ihl hsl hm
      · omega
      · have : k < key := hkr key hm
        rw [mark_node_gt k h m l r key this]
        exact ihr hsr hm

theorem mark_absent (key : Nat) :
    ∀ t : avl_node, key ∉ inorder_keys t → mark_node t key = (t, false) := by
  intro t
  induction t with
  | nil =>
    intro _
    rfl
  | node k h m l r ihl ihr =>
    intro hm
    rw [inorder_keys_node] at hm
    simp only [List.mem_append, List.mem_cons] at hm
    push_neg at hm
    by_cases he : key = k
    · exact absurd he hm.2.1
    · by_cases hlt : key < k
      · rw [mark_node_lt k h m l r key hlt, ihl hm.1]
      · rw [mark_node_gt k h m l r key (by omega), ihr hm.2.2]

theorem inorder_pairs_mark (key : Nat) :
    ∀ t : avl_node, List.Sorted (· < ·) (inorder_keys t) → key ∈ inorder_keys t →
    inorder_pairs (mark_node t key).1 =
      (inorder_pairs t).map (fun p => if p.1 = key then (p.1, true) else p) := by
  intro t
  induction t with
  | nil =>
    intro _ hm
    simp [inorder_keys] at hm
  | node k h m l r ihl ihr =>
    intro hs hm
    rw [inorder_keys_node, List.Sorted, List.pairwise_append] at hs
    obtain ⟨hsl, hsr2, hcross⟩ := hs
    rw [List.pairwise_cons] at hsr2
    obtain ⟨hkr, hsr⟩ := hsr2
    rw [inorder_keys_node] at hm
    simp only [List.mem_append, List.mem_cons] at hm
    have hmapl : ∀ ps : List (Nat × Bool), ps.map Prod.fst = inorder_keys l →
        (∀ x ∈ inorder_keys l, x < k) → key = k →
        ps.map (fun p => if p.1 = key then (p.1, true) else p) = ps := by
      intro ps hps hlt he
      have hid : ∀ p ∈ ps, (if p.1 = key then (p.1, true) else p) = id p := by
        intro p hp
        have hpk : p.1 ∈ inorder_keys l := by
          rw [← hps]
          exact List.mem_map_of_mem Prod.fst hp
        rw [if_neg (by have := hlt p.1 hpk; omega)]
        rfl
      rw [List.map_congr_left hid, List.map_id]
    by_cases he : key = k
    · rw [mark_node_hit k h m l r key he]
      rw [inorder_pairs_node, inorder_pairs_node, List.map_append, List.map_cons]
      rw [mark_if]
      rw [hmapl (inorder_pairs l) (inorder_pairs_fst l)
        (fun x hx => hcross x hx k (List.mem_cons_self k _)) he]
      rw [if_pos (by omega : k = key)]
      have hmapr : (inorder_pairs r).map (fun p => if p.1 = key then (p.1, true) else p) =
          inorder_pairs r := by
        have hid : ∀ p ∈ inorder_pairs r, (if p.1 = key then (p.1, true) else p) = id p := by
          intro p hp
          have hpk : p.1 ∈ inorder_keys r := by
            rw [← inorder_pairs_fst r]
            exact List.mem_map_of_mem Prod.fst hp
          rw [if_neg (by have := hkr p.1 hpk; omega)]
          rfl
        rw [List.map_congr_left hid, List.map_id]
      rw [hmapr]
    · rcases hm with hm | hm | hm
      · have hklt : key < k := hcross key hm k (List.mem_cons_self k _)
        rw [mark_node_lt k h m l r key hklt]
        rw [inorder_pairs_node, inorder_pairs_node, List.map_append, List.map_cons]
        rw [ihl hsl hm]
        rw [if_neg (by omega : ¬ k = key)]
        have hmapr : (inorder_pairs r).map (fun p => if p.1 = key then (p.1, true) else p) =
            inorder_pairs r := by
          have hid : ∀ p ∈ inorder_pairs r, (if p.1 = key then (p.1, true) else p) = id p := by
            intro p hp
            have hpk : p.1 ∈ inorder_keys r := by
              rw [← inorder_pairs_fst r]
              exact List.mem_map_of_mem Prod.fst hp
            rw [if_neg (by have := hkr p.1 hpk; omega)]
            rfl
          rw [List.map_congr_left hid, List.map_id]
        rw [hmapr]
      · omega
      · have hkgt : k < key := hkr key hm
        rw [mark_node_gt k h m l r key hkgt]
        rw [inorder_pairs_node, inorder_pairs_node, List.map_append, List.map_cons]
        rw [ihr hsr hm]
        rw [if_neg (by omega : ¬ k = key)]
        have hmapl2 : (inorder_pairs l).map (fun p => if p.1 = key then (p.1, true) else p) =
            inorder_pairs l := by
          have hid : ∀ p ∈ inorder_pairs l, (if p.1 = key then (p.1, true) else p) = id p := by
            intro p hp
            have hpk : p.1 ∈ inorder_keys l := by
              rw [← inorder_pairs_fst l]
              exact List.mem_map_of_mem Prod.fst hp
            rw [if_neg (by have := hcross p.1 hpk k (List.mem_cons_self k _); omega)]
            rfl
          rw [List.map_congr_left hid, List.map_id]
        rw [hmapl2]

theorem mark_node_idem (key : Nat) :
    ∀ t : avl_node, mark_node (mark_node t key).1 key =
      ((mark_node t key).1, (mark_node t key).2) := by
  intro t
  induction t with
  | nil => rfl
  | node k h m l r ihl ihr =>
    by_cases he : key = k
    · rw [mark_node_hit k h m l r key he]
      simp only []
      rw [mark_node_hit k h (if m then m else true) l r key he]
      rw [mark_if, mark_if]
    · by_cases hlt : key < k
      · rw [mark_node_lt k h m l r key hlt]
        simp only []
        rw [mark_node_lt k h m (mark_node l key).1 r key hlt, ihl]
      · rw [mark_node_gt k h m l r key (by omega)]
        simp only []
        rw [mark_node_gt k h m l (mark_node r key).1 key (by omega), ihr]

/-- **C7.** For every ordered-registry tree (sorted in-order sequence) and
key `k`: if `k` is present, `avl_mark(tree, k)` returns 1, afterwards the
node's marked flag is 1, repeating the call returns 1 again and leaves the
tree bit-for-bit unchanged, and no call alters the tree's shape, keys or
heights (`strip_marks` is preserved); if `k` is absent, `avl_mark` returns 0
and sets no marked flag anywhere (the tree is fully unchanged). -/
theorem C7_avl_mark_idempotent (t : avl_node) (key : Nat)
    (hs : List.Sorted (· < ·) (inorder_keys t)) :
    (key ∈ inorder_keys t →
      ((avl_mark t key).2 = true ∧
        inorder_pairs (avl_mark t key).1 =
          (inorder_pairs t).map (fun p => if p.1 = key then (p.1, true) else p) ∧
        strip_marks (avl_mark t key).1 = strip_marks t ∧
        avl_mark ((avl_mark t key).1) key = ((avl_mark t key).1, true))) ∧
    (key ∉ inorder_keys t → avl_mark t key = (t, false)) := by
  constructor
  · intro hmem
    have hfound := mark_found key t hs hmem
    refine ⟨hfound, inorder_pairs_mark key t hs hmem, strip_marks_mark key t, ?_⟩
    rw [avl_mark, avl_mark, mark_node_idem, hfound]
  · intro habs
    rw [avl_mark, mark_absent key t habs]

theorem C7_avl_mark_idempotent_witness :
    (avl_mark (avl_node.node 5 1 false avl_node.nil avl_node.nil) 5).2 = true ∧
    inorder_pairs (avl_mark (avl_node.node 5 1 false avl_node.nil avl_node.nil) 5).1 =
      (inorder_pairs (avl_node.node 5 1 false avl_node.nil avl_node.nil)).map
        (fun p => if p.1 = 5 then (p.1, true) else p) ∧
    strip_marks (avl_mark (avl_node.node 5 1 false avl_node.nil avl_node.nil) 5).1 =
      strip_marks (avl_node.node 5 1 false avl_node.nil avl_node.nil) ∧
    avl_mark ((avl_mark (avl_node.node 5 1 false avl_node.nil avl_node.nil) 5).1) 5 =
      ((avl_mark (avl_node.node 5 1 false avl_node.nil avl_node.nil) 5).1, true) :=
  (C7_avl_mark_idempotent (avl_node.node 5 1 false avl_node.nil avl_node.nil) 5
    (by simp [inorder_keys])).1 (by simp [inorder_keys])

/-! ## C9: membership agreement between the two registries -/

/-- A C array whose first `l.length` cells hold the list `l` (out-of-range
cells read as 0; the verified calls never read them). -/
def listToArray (l : List Nat) : Int → Nat :=
  fun i => if i < 0 then 0 else l.getD i.toNat 0

theorem window_of_list :
    ∀ (l : List Nat) (base : Int) (a : Int → Nat),
    (∀ j : Nat, j < l.length → a (base + j) = l.getD j 0) →
    window a base (base + l.length - 1) = l := by
  intro l
  induction l with
  | nil =>
    intro base a hj
    exact window_nil a base (base + 0 - 1) (by omega)
  | cons x xs ih =>
    intro base a hj
    rw [window_cons a base (base + (x :: xs).length - 1) (by simp; omega)]
    have hx : a base = x := by
      have := hj 0 (by simp)
      simpa using this
    rw [hx]
    have htail : window a (base + 1) (base + (x :: xs).length - 1) = xs := by
      have hrw : base + (x :: xs).length - 1 = (base + 1) + xs.length - 1 := by
        simp
        omega
      rw [hrw]
      apply ih (base + 1) a
      intro j hjlen
      have := hj (j + 1) (by simp; omega)
      have harg : base + (j + 1 : Nat) = base + 1 + j := by
        push_cast
        omega
      rw [harg] at this
      rw [this]
      simp
    rw [htail]

theorem window_listToArray (l : List Nat) :
    window (listToArray l) 0 ((l.length : Int) - 1) = l := by
  have h := window_of_list l 0 (listToArray l) ?_
  · have hrw : (0 : Int) + l.length - 1 = (l.length : Int) - 1 := by omega
    rw [hrw] at h
    exact h
  · intro j hjlen
    rw [listToArray]
    rw [if_neg (by omega)]
    have htn : ((0 : Int) + j).toNat = j := by omega
    rw [htn]

theorem mem_keys_build (ks : List Nat) (x : Nat) :
    x ∈ inorder_keys (avl_build_from_array ks) ↔ x ∈ ks := by
  have H : ∀ (ks : List Nat) (t : avl_node),
      (x ∈ inorder_keys (ks.foldl (fun t k => (avl_insert t k).1) t) ↔
        x ∈ ks ∨ x ∈ inorder_keys t) := by
    intro ks
    induction ks with
    | nil =>
      intro t
      simp
    | cons a as ih =>
      intro t
      rw [List.foldl_cons, ih]
      constructor
      · rintro (hc | hc)
        · exact Or.inl (List.mem_cons_of_mem a hc)
        · rcases mem_insert_of_mem a x t hc with hd | hd
          · exact Or.inl (by rw [hd]; exact List.mem_cons_self a as)
          · exact Or.inr hd
      · rintro (hc | hc)
        · rcases List.mem_cons.mp hc with hd | hd
          · right
            rw [hd]
            exact mem_insert_self a t
          · exact Or.inl hd
        · exact Or.inr (mem_of_mem_insert a x t hc)
  rw [avl_build_from_array, H ks avl_create]
  simp [avl_create, inorder_keys]

theorem strict_of_sorted_nodup (a : Int → Nat) (n : Int)
    (hsort : sortedOn a 0 (n - 1)) (hnd : (window a 0 (n - 1)).Nodup) :
    ∀ p q, 0 ≤ p → p < q → q < n → a p < a q := by
  intro p q hp hpq hq
  have hle : a p ≤ a q := hsort p q hp (by omega) (by omega)
  rcases lt_or_eq_of_le hle with hlt | heq
  · exact hlt
  · exfalso
    rw [window] at hnd
    have hinj := List.inj_on_of_nodup_map hnd
    have hpq2 : p = q := hinj ((mem_idxList 0 (n - 1)).mpr (by omega))
      ((mem_idxList 0 (n - 1)).mpr (by omega)) heq
    omega

theorem binary_search_mark_nonneg_iff (arr : Int → Nat) (n : Int) (target : Nat)
    (flags : Int → Int) (hs : ∀ p q, 0 ≤ p → p < q → q < n → arr p < arr q) :
    (0 ≤ (binary_search_mark arr n target flags).2 ↔
      ∃ i, 0 ≤ i ∧ i < n ∧ arr i = target) := by
  constructor
  · intro hge
    by_contra habs
    push_neg at habs
    have := binarySearchLoop_notfound arr target n
      (fun j hj1 hj2 hj3 => by have := habs j hj1 hj2; omega) flags 0 (n - 1)
      (le_refl 0) (le_refl (n - 1))
    rw [binary_search_mark, this] at hge
    simp at hge
  · rintro ⟨i, hi1, hi2, hi3⟩
    obtain ⟨c1, _, _⟩ := binarySearchLoop_found arr target n hs flags 0 (n - 1)
      (le_refl 0) (le_refl (n - 1)) i hi1 (by omega) hi3
    rw [binary_search_mark, c1]
    omega

/-- **C9.** For every finite sequence of pairwise-distinct keys and every
key, membership agrees between the two registries: `binary_search_mark` over
the sorted copy of the sequence returns a non-negative index for the target
iff `avl_contains` returns 1 on the tree `avl_build_from_array` builds from
the same sequence. -/
theorem C9_registry_membership_agree (ks : List Nat) (hnd : ks.Nodup)
    (target : Nat) (flags : Int → Int) :
    (0 ≤ (binary_search_mark (forkscan_util_sort (listToArray ks) ks.length)
        ks.length target flags).2 ↔
      avl_contains (avl_build_from_array ks) target = true) := by
  obtain ⟨hsort, hperm, _⟩ :=
    quicksort_spec (listToArray ks) 0 ((ks.length : Int) - 1) (le_refl 0)
  rw [window_listToArray] at hperm
  have hsort2 : sortedOn (forkscan_util_sort (listToArray ks) ks.length) 0
      ((ks.length : Int) - 1) := by
    rw [forkscan_util_sort]
    exact hsort
  have hperm2 : (window (forkscan_util_sort (listToArray ks) ks.length) 0
      ((ks.length : Int) - 1)).Perm ks := by
    rw [forkscan_util_sort]
    exact hperm
  have hnd2 : (window (forkscan_util_sort (listToArray ks) ks.length) 0
      ((ks.length : Int) - 1)).Nodup := hperm2.nodup_iff.mpr hnd
  have hstrict := strict_of_sorted_nodup
    (forkscan_util_sort (listToArray ks) ks.length) ks.length hsort2 hnd2
  rw [binary_search_mark_nonneg_iff _ _ _ _ hstrict]
  have hmem1 : (∃ i, 0 ≤ i ∧ i < (ks.length : Int) ∧
      forkscan_util_sort (listToArray ks) ks.length i = target) ↔ target ∈ ks := by
    rw [← hperm2.mem_iff, mem_window]
    constructor
    · rintro ⟨i, h1, h2, h3⟩
      exact ⟨i, h1, by omega, h3⟩
    · rintro ⟨i, h1, h2, h3⟩
      exact ⟨i, h1, by omega, h3⟩
  rw [hmem1]
  have hmem2 : avl_contains (avl_build_from_array ks) target = true ↔ target ∈ ks := by
    rw [avl_contains]
    constructor
    · intro hc
      rw [← mem_keys_build ks target]
      exact contains_node_mem target _ hc
    · intro hc
      exact mem_contains_node target _ (sorted_build ks).2.2
        ((mem_keys_build ks target).mpr hc)
  rw [hmem2]

theorem C9_registry_membership_agree_witness :
    (0 ≤ (binary_search_mark (forkscan_util_sort (listToArray [2, 1]) (2 : Nat))
        (2 : Nat) 1 (fun _ => 0)).2 ↔
      avl_contains (avl_build_from_array [2, 1]) 1 = true) :=
  C9_registry_membership_agree [2, 1] (by decide) 1 (fun _ => 0)

/-! ## `forkscan_test/main.c`: the `remove_node` retirement race

Two threads run `remove_node(key)` on the same previously-added key.  Each
thread performs at most two atomic actions, in program order:

1. `atomic_exchange(&array[key], NULL)` — if it returns NULL the thread
   returns `false` immediately (phase `lostSlot`), never touching the
   occupant;
2. otherwise (phase `holdingNode`) it performs
   `atomic_exchange(&oldval->collected, 1)`; if that returns 0 it calls
   `forkscan_retire` (phase `retiredNode` — the retirement hand-off), else
   it performs no hand-off (phase `sawCollected`).

Atomic read-modify-writes on one location are totally ordered, so every
concurrent execution is an interleaving (a schedule of which thread takes
its next atomic action). -/

inductive TPhase where
  | start : TPhase
  | holdingNode : TPhase
  | lostSlot : TPhase
  | retiredNode : TPhase
  | sawCollected : TPhase
deriving DecidableEq, Fintype

/-- The shared state (`array[key]` occupancy and the occupant's `collected`
flag) plus each thread's phase. -/
structure RaceState where
  slot : Bool
  collected : Bool
  t1 : TPhase
  t2 : TPhase
deriving DecidableEq, Fintype

/-- One atomic action of a thread in phase `ph` against the shared state:
returns the new phase and the new (slot, collected) pair. -/
def tstep (slot collected : Bool) (ph : TPhase) : TPhase × Bool × Bool :=
  match ph with
  | TPhase.start =>
      if slot then (TPhase.holdingNode, false, collected)
      else (TPhase.lostSlot, false, collected)
  | TPhase.holdingNode =>
      if collected then (TPhase.sawCollected, slot, true)
      else (TPhase.retiredNode, slot, true)
  | ph => (ph, slot, collected)

def raceStep (s : RaceState) (who : Bool) : RaceState :=
  if who then
    { slot := (tstep s.slot s.collected s.t1).2.1,
      collected := (tstep s.slot s.collected s.t1).2.2,
      t1 := (tstep s.slot s.collected s.t1).1, t2 := s.t2 }
  else
    { slot := (tstep s.slot s.collected s.t2).2.1,
      collected := (tstep s.slot s.collected s.t2).2.2,
      t1 := s.t1, t2 := (tstep s.slot s.collected s.t2).1 }

def raceRun (s : RaceState) : List Bool → RaceState
  | [] => s
  | w :: ws => raceRun (raceStep s w) ws

/-- Initially the key is present (`add` succeeded: slot occupied, collected
initialised to 0) and neither thread has acted. -/
def raceInit : RaceState :=
  { slot := true, collected := false, t1 := TPhase.start, t2 := TPhase.start }

/-- The thread's `remove_node` call has returned. -/
def finished : TPhase → Bool
  | TPhase.start => false
  | TPhase.holdingNode => false
  | _ => true

/-- The set of reachable states of the race (checked exhaustively). -/
def goodRace (s : RaceState) : Bool :=
  (s = { slot := true, collected := false, t1 := TPhase.start, t2 := TPhase.start }) ||
  (s = { slot := false, collected := false, t1 := TPhase.holdingNode, t2 := TPhase.start }) ||
  (s = { slot := false, collected := false, t1 := TPhase.start, t2 := TPhase.holdingNode }) ||
  (s = { slot := false, collected := false, t1 := TPhase.holdingNode, t2 := TPhase.lostSlot }) ||
  (s = { slot := false, collected := false, t1 := TPhase.lostSlot, t2 := TPhase.holdingNode }) ||
  (s = { slot := false, collected := true, t1 := TPhase.retiredNode, t2 := TPhase.start }) ||
  (s = { slot := false, collected := true, t1 := TPhase.start, t2 := TPhase.retiredNode }) ||
  (s = { slot := false, collected := true, t1 := TPhase.retiredNode, t2 := TPhase.lostSlot }) ||
  (s = { slot := false, collected := true, t1 := TPhase.lostSlot, t2 := TPhase.retiredNode })

theorem goodRace_step : ∀ (s : RaceState) (w : Bool),
    goodRace s = true → goodRace (raceStep s w) = true := by decide

theorem goodRace_run : ∀ (ws : List Bool) (s : RaceState),
    goodRace s = true → goodRace (raceRun s ws) = true := by
  intro ws
  induction ws with
  | nil =>
    intro s hs
    exact hs
  | cons w ws ih =>
    intro s hs
    exact ih (raceStep s w) (goodRace_step s w hs)

/-- **C10, amended.**  In every complete interleaving of two concurrent
`remove_node(k)` calls on the same previously-added key, exactly one thread
performs the retirement hand-off (`forkscan_retire`), namely the one whose
slot exchange returned the occupant and whose `collected` exchange returned
0; the other thread's slot exchange returns NULL, so it returns `false`
without ever reading the `collected` flag — it never observes "already
collected" (phase `sawCollected` is unreachable). -/
theorem C10_remove_race_amended (ws : List Bool)
    (h1 : finished (raceRun raceInit ws).t1 = true)
    (h2 : finished (raceRun raceInit ws).t2 = true) :
    ((raceRun raceInit ws).t1 = TPhase.retiredNode ∧
      (raceRun raceInit ws).t2 = TPhase.lostSlot) ∨
    ((raceRun raceInit ws).t1 = TPhase.lostSlot ∧
      (raceRun raceInit ws).t2 = TPhase.retiredNode) := by
  have hg := goodRace_run ws raceInit (by decide)
  have key : ∀ s : RaceState, goodRace s = true → finished s.t1 = true →
      finished s.t2 = true →
      ((s.t1 = TPhase.retiredNode ∧ s.t2 = TPhase.lostSlot) ∨
        (s.t1 = TPhase.lostSlot ∧ s.t2 = TPhase.retiredNode)) := by decide
  exact key (raceRun raceInit ws) hg h1 h2

theorem C10_remove_race_amended_witness :
    ((raceRun raceInit [true, true, false]).t1 = TPhase.retiredNode ∧
      (raceRun raceInit [true, true, false]).t2 = TPhase.lostSlot) ∨
    ((raceRun raceInit [true, true, false]).t1 = TPhase.lostSlot ∧
      (raceRun raceInit [true, true, false]).t2 = TPhase.retiredNode) :=
  C10_remove_race_amended [true, true, false] (by decide) (by decide)

/-- **C10 counterexample.**  A complete execution (thread 1 runs both its
atomic actions, then thread 2 runs) in which exactly one hand-off fires but
the losing thread finishes in phase `lostSlot` — its slot exchange returned
NULL and it never read the `collected` flag — refuting the claim that "the
other thread observes the occupant's collected flag already set". -/
theorem C10_counterexample :
    (raceRun raceInit [true, true, false]).t1 = TPhase.retiredNode ∧
    (raceRun raceInit [true, true, false]).t2 = TPhase.lostSlot ∧
    ¬ (raceRun raceInit [true, true, false]).t2 = TPhase.sawCollected ∧
    finished (raceRun raceInit [true, true, false]).t2 = true := by decide
